import Mathlib

/-!
Verification of the `chunk-data` re-chunking library (src/index.js).

The model is a shallow embedding over byte lists:

* an `ArrayBufferView` input unit is modelled by its underlying byte
  contents (`List Nat`), matching `toUint8Array`, which reinterprets any
  view as its raw bytes;
* `Uint8Array.prototype.set` is modelled by `typedArraySet`, which fails
  (returns `none`) exactly when JavaScript would throw a `RangeError`;
* the generator `chunk` is modelled by `chunkViews`/`chunkContents`:
  each `yield uint8Array.subarray(offset, offset + chunkSize)` becomes an
  `(offset, length)` view descriptor, whose bytes are read through
  `viewContent`;
* the generator `chunkFrom` is modelled by `processPart` (the body of the
  `for (const part of iterable)` loop) and `runFrom` (the loop itself plus
  the final carry flush).  Each emission is tagged `Emission.slice`
  (a `subarray` of the current input unit — zero copy) or `Emission.owned`
  (a freshly allocated merged chunk, or the final view of the private
  carry buffer).  The run also records every byte-copy the code performs
  as `CopyEvt`s: `fromCarry = false` events are reads from the current
  input unit (lines 54, 61, 77), `fromCarry = true` events are reads from
  the carry buffer (line 53), tagged with the provenance of the carry byte
  (which the model tracks in the ghost field `CarryState.origins`);
* `chunkFromAsync` is modelled by the textually duplicated definitions
  `fastTailA`/`processPartA`/`runFromA`, mirroring how the source
  duplicates the loop body;
* argument validation is modelled over `JSNumber` (a JavaScript number:
  a rational, `NaN`, or an infinity) and `JSSource` (the protocol facts
  `Number.isSafeInteger`, `typeof x[Symbol.iterator]`,
  `typeof x[Symbol.asyncIterator]`, `typeof x === 'string'` inspect).
-/

namespace ChunkData

/-- A JavaScript number argument: a finite value (rational — every float
is one), `NaN`, or an infinity. -/
inductive JSNumber where
  | num (q : Rat)
  | nan
  | posInf
  | negInf
deriving DecidableEq

/-- `Number.MAX_SAFE_INTEGER`. -/
def maxSafeInteger : Nat := 2 ^ 53 - 1

/-- `Number.isSafeInteger(x)`: finite, integral, magnitude at most
`2^53 - 1`. -/
def isSafeInteger : JSNumber → Bool
  | .num q => q.den == 1 && decide (q.num.natAbs ≤ maxSafeInteger)
  | .nan => false
  | .posInf => false
  | .negInf => false

/-- The JavaScript comparison `x <= 0` (false for `NaN`). -/
def jsLeZero : JSNumber → Bool
  | .num q => decide (q ≤ 0)
  | .nan => false
  | .posInf => false
  | .negInf => true

/-- The chunk-size guard of all three functions:
`Number.isSafeInteger(chunkSize) && !(chunkSize <= 0)`. -/
def validChunkSize (cs : JSNumber) : Bool :=
  isSafeInteger cs && !jsLeZero cs

/-- The natural number denoted by a validated chunk size. -/
def toNatChunkSize : JSNumber → Nat
  | .num q => q.num.toNat
  | .nan => 0
  | .posInf => 0
  | .negInf => 0

/-- The `TypeError` conditions the library can raise, distinguished by
message, plus `internal` for operations that would be runtime faults
(never reached from valid states). -/
inductive JSError where
  | sourceType
  | chunkSizeType
  | itemType
  | internal
deriving DecidableEq

/-- One item pulled from a source sequence: an `ArrayBufferView`
(modelled by its raw bytes), a thenable (a promise-like value that
resolves to another item — relevant because `for await` unwraps
thenables yielded by a synchronous iterator, while `for of` and
`ArrayBuffer.isView` see the thenable object itself), or anything
else. -/
inductive JSItem where
  | view (bytes : List Nat)
  | nonView
  | thenable (result : JSItem)
deriving DecidableEq

/-- The raw bytes of an item (empty for a non-view; only read for
views). -/
def itemBytes : JSItem → List Nat
  | .view bytes => bytes
  | .nonView => []
  | .thenable _ => []

/-- `await v`: unwraps thenables (recursively, as `await` does) and
leaves every other value unchanged. -/
def awaitItem : JSItem → JSItem
  | .view bytes => .view bytes
  | .nonView => .nonView
  | .thenable r => awaitItem r

/-- Whether a value is a thenable (so `await` would change it). -/
def isThenable : JSItem → Bool
  | .view _ => false
  | .nonView => false
  | .thenable _ => true

/-- The protocol-level facts about a source argument that the eager
validation of `chunkFrom`/`chunkFromAsync` inspects, together with the
items each iteration protocol would yield: `items` is what the
synchronous iterator (`Symbol.iterator`) yields, `asyncItems` what the
asynchronous iterator (`Symbol.asyncIterator`) yields — `for await`
prefers the latter when both exist, and the two streams need not
agree. -/
structure JSSource where
  hasIterator : Bool
  hasAsyncIterator : Bool
  isString : Bool
  items : List JSItem
  asyncItems : List JSItem

/-- The item stream `for await (const part of iterable)` actually
consumes: the async iterator's items used as-is when
`Symbol.asyncIterator` exists, otherwise the sync iterator's items with
each yielded value awaited (thenables unwrapped). -/
def asyncEffectiveItems (src : JSSource) : List JSItem :=
  if src.hasAsyncIterator then src.asyncItems
  else src.items.map awaitItem

/-- A JavaScript string of `n` characters, seen as a source: it is a
sync iterable, not an async iterable, and iterating it yields `n`
single-character strings, none of which is an `ArrayBufferView` or a
thenable. -/
def stringSource (n : Nat) : JSSource :=
  { hasIterator := true
    hasAsyncIterator := false
    isString := true
    items := List.replicate n JSItem.nonView
    asyncItems := [] }

/-- One chunk emitted by the re-chunker: a zero-copy `subarray` of input
unit `unit` (at byte offset `off`, length `len`), or a buffer the
operation owns (a freshly allocated merged chunk, or the final view of
the private carry buffer, recorded by its bytes). -/
inductive Emission where
  | slice (unit off len : Nat)
  | owned (bytes : List Nat)
deriving DecidableEq

/-- The bytes an emitted chunk shows when read against the (possibly
mutated) input units `units`: a slice reads through to its source unit,
an owned chunk has fixed contents. -/
def emissionBytes (units : List (List Nat)) : Emission → List Nat
  | .slice u off len => ((units.getD u []).drop off).take len
  | .owned bytes => bytes

/-- One byte-copy performed by the code, with the provenance of the
copied byte: `fromCarry = false` means the byte was read directly from
input unit `unit` at index `idx` (the `set` calls on lines 54, 61 and 77
of the source); `fromCarry = true` means it was read back out of the
carry buffer (line 53), and `(unit, idx)` is where that carry byte
originally came from. -/
structure CopyEvt where
  fromCarry : Bool
  unit : Nat
  idx : Nat
deriving DecidableEq

/-- The state `chunkFrom` carries across input units: `carryBuffer`
(lazily allocated, `none` before first allocation), `carryLength`, and
the ghost field `origins` recording, for each of the `carryLength`
pending carry bytes, the input position it was copied from (used only by
the copy-cost accounting, it does not influence the data path). -/
structure CarryState where
  carryBuffer : Option (List Nat)
  carryLength : Nat
  origins : List (Nat × Nat)
deriving DecidableEq

/-- The initial state: no carry buffer allocated, `carryLength = 0`. -/
def initState : CarryState := ⟨none, 0, []⟩

/-- The bytes currently pending in the carry buffer
(`carryBuffer.subarray(0, carryLength)`). -/
def carryContents (st : CarryState) : List Nat :=
  (st.carryBuffer.getD []).take st.carryLength

/-- `target.set(src, off)` on typed arrays: overwrites
`target[off .. off + src.length)` with `src`; throws a `RangeError`
(modelled as `none`) if the source does not fit. -/
def typedArraySet (target src : List Nat) (off : Nat) : Option (List Nat) :=
  if off + src.length ≤ target.length then
    some (target.take off ++ src ++ target.drop (off + src.length))
  else
    none

/-- The direct-slice loop
`for (; offset + chunkSize <= buffer.length; offset += chunkSize)`:
returns the emitted offsets and the final value of `offset`.  The
`0 < cs` conjunct only guards termination; validation rejects
`chunkSize <= 0` before the loop can run. -/
def sliceOffsets (cs bufLen off : Nat) : List Nat × Nat :=
  if h : 0 < cs ∧ off + cs ≤ bufLen then
    let r := sliceOffsets cs bufLen (off + cs)
    (off :: r.1, r.2)
  else
    ([], off)
termination_by bufLen - off
decreasing_by omega

/-- Lines 67–79 of the source: from local read offset `off0`, emit
direct slices of `buffer` while a full chunk remains, then save any
remainder into the (lazily allocated) carry buffer.  Returns the
emissions, the updated state, and the copy events. -/
def fastTail (cs u : Nat) (cb : Option (List Nat)) (buffer : List Nat)
    (off0 : Nat) :
    Except JSError (List Emission × CarryState × List CopyEvt) :=
  let r := sliceOffsets cs buffer.length off0
  let slices := r.1.map fun o => Emission.slice u o cs
  if r.2 < buffer.length then
    let rem := buffer.drop r.2
    let base := cb.getD (List.replicate cs 0)
    match typedArraySet base rem 0 with
    | none => .error .internal
    | some cb2 =>
      .ok (slices,
        ⟨some cb2, rem.length, (List.range rem.length).map fun j => (u, r.2 + j)⟩,
        (List.range rem.length).map fun j => ⟨false, u, r.2 + j⟩)
  else
    .ok (slices, ⟨cb, 0, []⟩, [])

/-- The body of `for (const part of iterable)` in `chunkFrom`
(lines 33–80 of the source), for input unit number `u` with raw bytes
`buffer`: skip empty buffers, complete or grow a pending carry, then run
the direct-slice fast path and save the remainder. -/
def processPart (cs u : Nat) (st : CarryState) (buffer : List Nat) :
    Except JSError (List Emission × CarryState × List CopyEvt) :=
  if buffer.length = 0 then
    .ok ([], st, [])
  else if 0 < st.carryLength then
    match st.carryBuffer with
    | none => .error .internal
    | some cb =>
      if cs - st.carryLength ≤ buffer.length then
        match typedArraySet (List.replicate cs 0) (cb.take st.carryLength) 0 with
        | none => .error .internal
        | some out1 =>
          match typedArraySet out1 (buffer.take (cs - st.carryLength))
              st.carryLength with
          | none => .error .internal
          | some out =>
            match fastTail cs u (some cb) buffer (cs - st.carryLength) with
            | .error e => .error e
            | .ok (es, st', evts) =>
              .ok (.owned out :: es, st',
                st.origins.map (fun o => ⟨true, o.1, o.2⟩) ++
                  ((List.range (cs - st.carryLength)).map
                    fun j => ⟨false, u, j⟩) ++ evts)
      else
        match typedArraySet cb buffer st.carryLength with
        | none => .error .internal
        | some cb2 =>
          .ok ([],
            ⟨some cb2, st.carryLength + buffer.length,
              st.origins ++ (List.range buffer.length).map fun j => (u, j)⟩,
            (List.range buffer.length).map fun j => ⟨false, u, j⟩)
  else
    fastTail cs u st.carryBuffer buffer 0

/-- The whole loop of `chunkFrom` plus the final carry flush
(lines 30–85 of the source), over the remaining items, where `u` is the
index of the next item: non-view items raise `TypeError`; at the end the
pending carry, if any, is emitted as `carryBuffer.subarray(0,
carryLength)` (a view of the private carry buffer, hence `owned`). -/
def runFrom (cs : Nat) : List JSItem → Nat → CarryState →
    Except JSError (List Emission × List CopyEvt)
  | [], _, st =>
    if 0 < st.carryLength then
      match st.carryBuffer with
      | none => .error .internal
      | some cb => .ok ([.owned (cb.take st.carryLength)], [])
    else
      .ok ([], [])
  | item :: rest, u, st =>
    match item with
    | .nonView => .error .itemType
    | .thenable _ => .error .itemType
    | .view bytes =>
      match processPart cs u st bytes with
      | .error e => .error e
      | .ok (es, st2, evts) =>
        match runFrom cs rest (u + 1) st2 with
        | .error e => .error e
        | .ok (es2, evts2) => .ok (es ++ es2, evts ++ evts2)

/-- `chunkFrom` on already-validated input: the byte contents of the
chunks it yields for the unit sequence `units` and chunk size `cs`. -/
def chunkFromCore (cs : Nat) (units : List (List Nat)) :
    Except JSError (List (List Nat)) :=
  match runFrom cs (units.map JSItem.view) 0 initState with
  | .error e => .error e
  | .ok (es, _) => .ok (es.map (emissionBytes units))

/-- State-only variant of the loop: the carry state after consuming the
given units (used to reason about states reachable mid-run). -/
def runStateFrom (cs : Nat) : List (List Nat) → Nat → CarryState →
    Except JSError CarryState
  | [], _, st => .ok st
  | b :: rest, u, st =>
    match processPart cs u st b with
    | .error e => .error e
    | .ok (_, st2, _) => runStateFrom cs rest (u + 1) st2

/-- `chunkFrom(iterable, chunkSize)` with its eager validation
(lines 21–28): source-type check (`Symbol.iterator` present, not a
string) before the chunk-size check, then the loop. -/
def chunkFromJS (src : JSSource) (cs : JSNumber) :
    Except JSError (List Emission) :=
  if !src.hasIterator || src.isString then
    .error .sourceType
  else if !validChunkSize cs then
    .error .chunkSizeType
  else
    match runFrom (toNatChunkSize cs) src.items 0 initState with
    | .error e => .error e
    | .ok (es, _) => .ok es

/-- Lines 133–145 of the source (`chunkFromAsync`): the direct-slice
loop and remainder save, duplicated from the synchronous variant exactly
as the source duplicates them. -/
def fastTailA (cs u : Nat) (cb : Option (List Nat)) (buffer : List Nat)
    (off0 : Nat) :
    Except JSError (List Emission × CarryState × List CopyEvt) :=
  let r := sliceOffsets cs buffer.length off0
  let slices := r.1.map fun o => Emission.slice u o cs
  if r.2 < buffer.length then
    let rem := buffer.drop r.2
    let base := cb.getD (List.replicate cs 0)
    match typedArraySet base rem 0 with
    | none => .error .internal
    | some cb2 =>
      .ok (slices,
        ⟨some cb2, rem.length, (List.range rem.length).map fun j => (u, r.2 + j)⟩,
        (List.range rem.length).map fun j => ⟨false, u, r.2 + j⟩)
  else
    .ok (slices, ⟨cb, 0, []⟩, [])

/-- The body of `for await (const part of iterable)` in `chunkFromAsync`
(lines 99–146 of the source), duplicated from the synchronous variant
exactly as the source duplicates it. -/
def processPartA (cs u : Nat) (st : CarryState) (buffer : List Nat) :
    Except JSError (List Emission × CarryState × List CopyEvt) :=
  if buffer.length = 0 then
    .ok ([], st, [])
  else if 0 < st.carryLength then
    match st.carryBuffer with
    | none => .error .internal
    | some cb =>
      if cs - st.carryLength ≤ buffer.length then
        match typedArraySet (List.replicate cs 0) (cb.take st.carryLength) 0 with
        | none => .error .internal
        | some out1 =>
          match typedArraySet out1 (buffer.take (cs - st.carryLength))
              st.carryLength with
          | none => .error .internal
          | some out =>
            match fastTailA cs u (some cb) buffer (cs - st.carryLength) with
            | .error e => .error e
            | .ok (es, st', evts) =>
              .ok (.owned out :: es, st',
                st.origins.map (fun o => ⟨true, o.1, o.2⟩) ++
                  ((List.range (cs - st.carryLength)).map
                    fun j => ⟨false, u, j⟩) ++ evts)
      else
        match typedArraySet cb buffer st.carryLength with
        | none => .error .internal
        | some cb2 =>
          .ok ([],
            ⟨some cb2, st.carryLength + buffer.length,
              st.origins ++ (List.range buffer.length).map fun j => (u, j)⟩,
            (List.range buffer.length).map fun j => ⟨false, u, j⟩)
  else
    fastTailA cs u st.carryBuffer buffer 0

/-- The whole loop of `chunkFromAsync` plus the final carry flush
(lines 96–151), duplicated from the synchronous variant exactly as the
source duplicates it. -/
def runFromA (cs : Nat) : List JSItem → Nat → CarryState →
    Except JSError (List Emission × List CopyEvt)
  | [], _, st =>
    if 0 < st.carryLength then
      match st.carryBuffer with
      | none => .error .internal
      | some cb => .ok ([.owned (cb.take st.carryLength)], [])
    else
      .ok ([], [])
  | item :: rest, u, st =>
    match item with
    | .nonView => .error .itemType
    | .thenable _ => .error .itemType
    | .view bytes =>
      match processPartA cs u st bytes with
      | .error e => .error e
      | .ok (es, st2, evts) =>
        match runFromA cs rest (u + 1) st2 with
        | .error e => .error e
        | .ok (es2, evts2) => .ok (es ++ es2, evts ++ evts2)

/-- `chunkFromAsync` on already-validated input. -/
def chunkFromAsyncCore (cs : Nat) (units : List (List Nat)) :
    Except JSError (List (List Nat)) :=
  match runFromA cs (units.map JSItem.view) 0 initState with
  | .error e => .error e
  | .ok (es, _) => .ok (es.map (emissionBytes units))

/-- State-only variant of the asynchronous loop. -/
def runStateFromA (cs : Nat) : List (List Nat) → Nat → CarryState →
    Except JSError CarryState
  | [], _, st => .ok st
  | b :: rest, u, st =>
    match processPartA cs u st b with
    | .error e => .error e
    | .ok (_, st2, _) => runStateFromA cs rest (u + 1) st2

/-- `chunkFromAsync(iterable, chunkSize)` with its eager validation
(lines 87–94): accepts anything with `Symbol.asyncIterator` or
`Symbol.iterator` (strings included), checks the chunk size, then runs
the loop. -/
def chunkFromAsyncJS (src : JSSource) (cs : JSNumber) :
    Except JSError (List Emission) :=
  if !src.hasAsyncIterator && !src.hasIterator then
    .error .sourceType
  else if !validChunkSize cs then
    .error .chunkSizeType
  else
    match runFromA (toNatChunkSize cs) (asyncEffectiveItems src) 0 initState with
    | .error e => .error e
    | .ok (es, _) => .ok es

/-- A view descriptor `(offset, length)` over some backing byte list. -/
def viewContent (data : List Nat) (v : Nat × Nat) : List Nat :=
  (data.drop v.1).take v.2

/-- The loop of the single-buffer splitter `chunk` (lines 16–18):
`yield uint8Array.subarray(offset, offset + chunkSize)` for
`offset = 0, cs, 2cs, …` while `offset < len`; `subarray` clamps the end
to the buffer length, so the view at `off` has length
`min cs (len - off)`.  The `0 < cs` conjunct only guards termination;
validation rejects `chunkSize <= 0` before the loop can run. -/
def chunkViews (cs len off : Nat) : List (Nat × Nat) :=
  if h : 0 < cs ∧ off < len then
    (off, min cs (len - off)) :: chunkViews cs len (off + cs)
  else
    []
termination_by len - off
decreasing_by omega

/-- The byte contents of the chunks `chunk(data, cs)` yields. -/
def chunkContents (data : List Nat) (cs : Nat) : List (List Nat) :=
  (chunkViews cs data.length 0).map (viewContent data)

/-- A single `data` argument to `chunk`: an `ArrayBufferView` (modelled
by its raw bytes) or anything else. -/
inductive JSData where
  | view (bytes : List Nat)
  | nonView
deriving DecidableEq

/-- Whether `ArrayBuffer.isView(data)` holds. -/
def isViewData : JSData → Bool
  | .view _ => true
  | .nonView => false

/-- `chunk(data, chunkSize)` with its validation (lines 5–12): view
check before the chunk-size check, then the splitting loop. -/
def chunkJS (data : JSData) (cs : JSNumber) :
    Except JSError (List (List Nat)) :=
  match data with
  | .nonView => .error .sourceType
  | .view bytes =>
    if !validChunkSize cs then
      .error .chunkSizeType
    else
      .ok (chunkContents bytes (toNatChunkSize cs))

/-- Modelled from the spec's words for §4.1 (for comparison with the
code): "starting at byte offset 0, repeatedly emit a slice
`[offset, min(offset+chunkSize, length))` and advance offset by
`chunkSize`, until offset ≥ length" — the offsets below `length` are
`i * cs` for `i < ⌈length / cs⌉`. -/
def sliceSpecChunks (data : List Nat) (cs : Nat) : List (List Nat) :=
  (List.range ((data.length + cs - 1) / cs)).map fun i =>
    (data.drop (i * cs)).take (min (i * cs + cs) data.length - i * cs)

/-- Whether every item of a source is a recognized binary view (the
claim's notion of "a sequence of views"; the code checks it per item). -/
def allViews (items : List JSItem) : Bool :=
  items.all fun it =>
    match it with
    | .view _ => true
    | .nonView => false
    | .thenable _ => false

/-- The claim's "recognized sequence of views" for `chunkFrom`: passes
the eager source check and every yielded item is a view. -/
def recognizedSyncSource (src : JSSource) : Bool :=
  src.hasIterator && !src.isString && allViews src.items

/-- The claim's "recognized sequence of views" for `chunkFromAsync`. -/
def recognizedAsyncSource (src : JSSource) : Bool :=
  (src.hasAsyncIterator || src.hasIterator) &&
    allViews (asyncEffectiveItems src)

/-- The state invariant `chunkFrom` maintains across input units (for
chunk size `cs`, about to process unit number `u`): an allocated carry
buffer has capacity exactly `cs`; a positive `carryLength` implies the
buffer is allocated; the pending remainder is strictly shorter than a
chunk; and the ghost provenance list matches it and only names already
consumed units. -/
def Inv (cs u : Nat) (st : CarryState) : Prop :=
  (∀ cb, st.carryBuffer = some cb → cb.length = cs) ∧
  (0 < st.carryLength → st.carryBuffer.isSome) ∧
  st.carryLength < cs ∧
  st.origins.length = st.carryLength ∧
  (∀ p ∈ st.origins, p.1 < u)

/-- How many recorded copy events read the byte of input unit `v` at
index `i` directly out of that unit. -/
def countFalseAt (evts : List CopyEvt) (v i : Nat) : Nat :=
  evts.countP fun ev => !ev.fromCarry && ev.unit == v && ev.idx == i

/-- How many recorded copy events copied the byte of input unit `v` at
index `i`, whether read from the unit or read back out of the carry
buffer. -/
def countAllAt (evts : List CopyEvt) (v i : Nat) : Nat :=
  evts.countP fun ev => ev.unit == v && ev.idx == i

/-- How many recorded copy events copied the byte of input unit `v` at
index `i` by reading it back out of the carry buffer. -/
def countTrueAt (evts : List CopyEvt) (v i : Nat) : Nat :=
  evts.countP fun ev => ev.fromCarry && ev.unit == v && ev.idx == i

/-- The byte of unit `v` at index `i` is covered by a direct-slice
(zero-copy fast path) emission. -/
def sliceCovered (es : List Emission) (v i : Nat) : Prop :=
  ∃ o len, Emission.slice v o len ∈ es ∧ o ≤ i ∧ i < o + len

/-! ### Copy-event counting helpers -/

theorem countP_range_shift (a i n : Nat) :
    (List.range n).countP (fun j => a + j == i)
      = if a ≤ i ∧ i < a + n then 1 else 0 := by
  induction n with
  | zero =>
    rw [List.range_zero, List.countP_nil, if_neg (by omega)]
  | succ n ih =>
    rw [List.range_succ, List.countP_append, ih, List.countP_cons, List.countP_nil]
    simp only [beq_iff_eq]
    split_ifs <;> omega

theorem countFalseAt_append (l1 l2 : List CopyEvt) (v i : Nat) :
    countFalseAt (l1 ++ l2) v i = countFalseAt l1 v i + countFalseAt l2 v i :=
  List.countP_append _ _ _

theorem countTrueAt_append (l1 l2 : List CopyEvt) (v i : Nat) :
    countTrueAt (l1 ++ l2) v i = countTrueAt l1 v i + countTrueAt l2 v i :=
  List.countP_append _ _ _

theorem countAllAt_append (l1 l2 : List CopyEvt) (v i : Nat) :
    countAllAt (l1 ++ l2) v i = countAllAt l1 v i + countAllAt l2 v i :=
  List.countP_append _ _ _

theorem countAllAt_split (evts : List CopyEvt) (v i : Nat) :
    countAllAt evts v i = countFalseAt evts v i + countTrueAt evts v i := by
  induction evts with
  | nil => rfl
  | cons ev rest ih =>
    unfold countAllAt countFalseAt countTrueAt at ih ⊢
    rw [List.countP_cons, List.countP_cons, List.countP_cons, ih]
    cases hb : ev.fromCarry <;> simp <;> omega

theorem countFalseAt_le_countAllAt (evts : List CopyEvt) (v i : Nat) :
    countFalseAt evts v i ≤ countAllAt evts v i := by
  rw [countAllAt_split]
  omega

theorem countFalseAt_range (u a n v i : Nat) :
    countFalseAt ((List.range n).map fun j => CopyEvt.mk false u (a + j)) v i
      = if v = u ∧ a ≤ i ∧ i < a + n then 1 else 0 := by
  unfold countFalseAt
  rw [List.countP_map]
  by_cases hv : v = u
  · subst hv
    have hfun : ((fun ev : CopyEvt => !ev.fromCarry && ev.unit == v && ev.idx == i) ∘
        fun j => CopyEvt.mk false v (a + j)) = fun j => a + j == i := by
      funext j
      simp
    rw [hfun, countP_range_shift]
    by_cases h : a ≤ i ∧ i < a + n
    · rw [if_pos h, if_pos (by exact ⟨rfl, h.1, h.2⟩)]
    · rw [if_neg h, if_neg (by tauto)]
  · rw [if_neg (by tauto)]
    apply List.countP_eq_zero.mpr
    intro j _
    simp only [Function.comp_apply, Bool.not_false, Bool.true_and, Bool.and_eq_true,
      beq_iff_eq]
    exact fun h => hv h.1.symm

theorem countTrueAt_range_false (u a n v i : Nat) :
    countTrueAt ((List.range n).map fun j => CopyEvt.mk false u (a + j)) v i = 0 := by
  unfold countTrueAt
  apply List.countP_eq_zero.mpr
  intro x hx
  rcases List.mem_map.mp hx with ⟨j, _, rfl⟩
  simp

theorem countFalseAt_true_events (origins : List (Nat × Nat)) (v i : Nat) :
    countFalseAt (origins.map fun o => CopyEvt.mk true o.1 o.2) v i = 0 := by
  unfold countFalseAt
  apply List.countP_eq_zero.mpr
  intro x hx
  rcases List.mem_map.mp hx with ⟨o, _, rfl⟩
  simp

theorem countTrueAt_pos_iff (evts : List CopyEvt) (v i : Nat) :
    0 < countTrueAt evts v i ↔
      ∃ ev ∈ evts, ev.fromCarry = true ∧ ev.unit = v ∧ ev.idx = i := by
  unfold countTrueAt
  rw [List.countP_pos_iff]
  constructor
  · rintro ⟨ev, hmem, hp⟩
    refine ⟨ev, hmem, ?_⟩
    simp only [Bool.and_eq_true, beq_iff_eq] at hp
    exact ⟨hp.1.1, hp.1.2, hp.2⟩
  · rintro ⟨ev, hmem, h1, h2, h3⟩
    exact ⟨ev, hmem, by simp [h1, h2, h3]⟩

theorem countFalseAt_pos_iff (evts : List CopyEvt) (v i : Nat) :
    0 < countFalseAt evts v i ↔
      ∃ ev ∈ evts, ev.fromCarry = false ∧ ev.unit = v ∧ ev.idx = i := by
  unfold countFalseAt
  rw [List.countP_pos_iff]
  constructor
  · rintro ⟨ev, hmem, hp⟩
    refine ⟨ev, hmem, ?_⟩
    simp only [Bool.and_eq_true, beq_iff_eq, Bool.not_eq_true'] at hp
    exact ⟨hp.1.1, hp.1.2, hp.2⟩
  · rintro ⟨ev, hmem, h1, h2, h3⟩
    exact ⟨ev, hmem, by simp [h1, h2, h3]⟩

theorem countFalseAt_eq_zero_of (evts : List CopyEvt) (v i : Nat)
    (h : ∀ ev ∈ evts, ev.fromCarry = true ∨ ev.unit ≠ v ∨ ev.idx ≠ i) :
    countFalseAt evts v i = 0 := by
  apply List.countP_eq_zero.mpr
  intro ev hmem
  simp only [Bool.and_eq_true, beq_iff_eq, Bool.not_eq_true']
  rintro ⟨⟨hb, hu⟩, hi⟩
  rcases h ev hmem with h1 | h1 | h1
  · rw [h1] at hb
    exact absurd hb (by simp)
  · exact h1 hu
  · exact h1 hi

/-! ### Generic list helpers -/

theorem take_set_comm (l : List Nat) (i n a : Nat) (h : i < n) :
    (l.set i a).take n = (l.take n).set i a := by
  apply List.ext_getElem
  · simp
  · intro j h1 h2
    rw [List.getElem_take]
    rw [List.getElem_set, List.getElem_set]
    split
    · rfl
    · rw [List.getElem_take]

theorem take_left_of_length (l1 l2 : List Nat) (n : Nat) (h : l1.length = n) :
    (l1 ++ l2).take n = l1 :=
  List.take_left' h

theorem sum_of_const_lengths (out : List (List Nat)) (cs : Nat)
    (h : ∀ b ∈ out, b.length = cs) :
    (out.map List.length).sum = out.length * cs := by
  induction out with
  | nil => simp
  | cons b rest ih =>
    simp only [List.map_cons, List.sum_cons, List.length_cons]
    rw [h b (by simp), ih (fun x hx => h x (by simp [hx]))]
    ring

/-! ### `typedArraySet` -/

theorem typedArraySet_eq (target src : List Nat) (off : Nat)
    (h : off + src.length ≤ target.length) :
    typedArraySet target src off =
      some (target.take off ++ src ++ target.drop (off + src.length)) := by
  simp [typedArraySet, h]

theorem typedArraySet_result_length (target src : List Nat) (off : Nat)
    (h : off + src.length ≤ target.length) :
    (target.take off ++ src ++ target.drop (off + src.length)).length
      = target.length := by
  simp only [List.length_append, List.length_take, List.length_drop]
  omega

/-! ### `sliceOffsets` -/

theorem sliceOffsets_bounds (cs bufLen : Nat) (hcs : 0 < cs) :
    ∀ off, off ≤ bufLen →
      off ≤ (sliceOffsets cs bufLen off).2 ∧
      (sliceOffsets cs bufLen off).2 ≤ bufLen ∧
      bufLen < (sliceOffsets cs bufLen off).2 + cs := by
  intro off
  induction off using sliceOffsets.induct cs bufLen with
  | case1 off h ih =>
    intro hoff
    rw [sliceOffsets, dif_pos h]
    dsimp only
    have := ih (by omega)
    omega
  | case2 off h =>
    intro hoff
    rw [sliceOffsets, dif_neg h]
    dsimp only
    omega

theorem sliceOffsets_mem (cs bufLen : Nat) :
    ∀ off o, o ∈ (sliceOffsets cs bufLen off).1 →
      off ≤ o ∧ o + cs ≤ (sliceOffsets cs bufLen off).2 := by
  intro off
  induction off using sliceOffsets.induct cs bufLen with
  | case1 off h ih =>
    intro o ho
    rw [sliceOffsets, dif_pos h] at ho ⊢
    dsimp only at ho ⊢
    rcases List.mem_cons.mp ho with rfl | htail
    · refine ⟨le_refl _, ?_⟩
      have := sliceOffsets_bounds cs bufLen h.1 (o + cs) h.2
      omega
    · have := ih o htail
      omega
  | case2 off h =>
    intro o ho
    rw [sliceOffsets, dif_neg h] at ho
    dsimp only at ho
    simp at ho

theorem sliceOffsets_join (cs bufLen : Nat) (hcs : 0 < cs) (l : List Nat)
    (hl : l.length = bufLen) :
    ∀ off, off ≤ bufLen →
      (((sliceOffsets cs bufLen off).1.map fun o => (l.drop o).take cs).flatten
        = (l.drop off).take ((sliceOffsets cs bufLen off).2 - off)) := by
  intro off
  induction off using sliceOffsets.induct cs bufLen with
  | case1 off h ih =>
    intro hoff
    rw [sliceOffsets, dif_pos h]
    dsimp only
    rw [List.map_cons, List.flatten_cons, ih (by omega)]
    have hb := sliceOffsets_bounds cs bufLen h.1 (off + cs) h.2
    have he : (sliceOffsets cs bufLen (off + cs)).2 - off
        = cs + ((sliceOffsets cs bufLen (off + cs)).2 - (off + cs)) := by omega
    rw [he, List.take_add, List.drop_drop]
  | case2 off h =>
    intro hoff
    rw [sliceOffsets, dif_neg h]
    dsimp only
    simp

/-! ### `chunkViews` (the single-buffer splitter loop) -/

theorem ceil_div_step (d cs : Nat) (hcs : 0 < cs) (hd : 0 < d) :
    (d + cs - 1) / cs = (d - cs + cs - 1) / cs + 1 := by
  have h1 : d + cs - 1 = (d - 1) + cs := by omega
  rw [h1, Nat.add_div_right _ hcs]
  rcases le_or_lt cs d with hle | hlt
  · have : d - cs + cs - 1 = d - 1 := by omega
    rw [this]
  · have h2 : d - cs = 0 := by omega
    rw [h2, Nat.div_eq_of_lt (by omega), Nat.div_eq_of_lt (by omega)]

theorem chunkViews_eq_range (cs len : Nat) (hcs : 0 < cs) :
    ∀ off, chunkViews cs len off =
      (List.range ((len - off + cs - 1) / cs)).map
        fun i => (off + i * cs, min cs (len - (off + i * cs))) := by
  intro off
  induction off using chunkViews.induct cs len with
  | case1 off h ih =>
    rw [chunkViews, dif_pos h]
    have hk : (len - off + cs - 1) / cs = (len - (off + cs) + cs - 1) / cs + 1 := by
      have h2 : len - (off + cs) = len - off - cs := by omega
      rw [h2]
      exact ceil_div_step (len - off) cs hcs (by omega)
    rw [hk, List.range_succ_eq_map, List.map_cons, ih]
    rw [List.map_map]
    refine congrArg₂ _ (by simp) ?_
    refine List.map_congr_left ?_
    intro i _
    simp only [Function.comp_apply, Nat.succ_eq_add_one]
    refine congrArg₂ _ (by ring) ?_
    have : off + (i + 1) * cs = off + cs + i * cs := by ring
    rw [this]
  | case2 off h =>
    rw [chunkViews, dif_neg h]
    rcases Nat.lt_or_ge off len with hlt | hge
    · exact absurd ⟨hcs, hlt⟩ h
    · have : len - off = 0 := by omega
      rw [this, Nat.zero_add, Nat.div_eq_of_lt (by omega)]
      simp

theorem chunkViews_mem (cs len : Nat) :
    ∀ off v, v ∈ chunkViews cs len off →
      off ≤ v.1 ∧ v.1 < len ∧ v.1 + v.2 ≤ len ∧ 0 < v.2 := by
  intro off
  induction off using chunkViews.induct cs len with
  | case1 off h ih =>
    intro v hv
    rw [chunkViews, dif_pos h] at hv
    rcases List.mem_cons.mp hv with rfl | htail
    · dsimp only
      omega
    · have := ih v htail
      omega
  | case2 off h =>
    intro v hv
    rw [chunkViews, dif_neg h] at hv
    simp at hv

/-! ### `fastTail` (direct slices and remainder save) -/

theorem fastTail_eq_of_rem (cs u : Nat) (cb : Option (List Nat)) (buffer : List Nat)
    (off0 : Nat) (cb2 : List Nat)
    (hrem : (sliceOffsets cs buffer.length off0).2 < buffer.length)
    (hset : typedArraySet (cb.getD (List.replicate cs 0))
      (buffer.drop (sliceOffsets cs buffer.length off0).2) 0 = some cb2) :
    fastTail cs u cb buffer off0 = .ok
      ((sliceOffsets cs buffer.length off0).1.map fun o => Emission.slice u o cs,
       ⟨some cb2, (buffer.drop (sliceOffsets cs buffer.length off0).2).length,
         (List.range (buffer.drop (sliceOffsets cs buffer.length off0).2).length).map
           fun j => (u, (sliceOffsets cs buffer.length off0).2 + j)⟩,
       (List.range (buffer.drop (sliceOffsets cs buffer.length off0).2).length).map
         fun j => CopyEvt.mk false u ((sliceOffsets cs buffer.length off0).2 + j)) := by
  simp only [fastTail]
  rw [if_pos hrem, hset]

theorem fastTail_eq_no_rem (cs u : Nat) (cb : Option (List Nat)) (buffer : List Nat)
    (off0 : Nat)
    (hrem : ¬ (sliceOffsets cs buffer.length off0).2 < buffer.length) :
    fastTail cs u cb buffer off0 = .ok
      ((sliceOffsets cs buffer.length off0).1.map fun o => Emission.slice u o cs,
       ⟨cb, 0, []⟩, []) := by
  simp only [fastTail]
  rw [if_neg hrem]

theorem fastTail_spec (cs u : Nat) (cb : Option (List Nat)) (buffer : List Nat)
    (off0 : Nat) (hcs : 0 < cs) (hoff : off0 ≤ buffer.length)
    (hcb : ∀ c, cb = some c → c.length = cs) :
    ∃ es st' evts,
      fastTail cs u cb buffer off0 = .ok (es, st', evts) ∧
      (∀ units : List (List Nat), units.getD u [] = buffer →
        (es.map (emissionBytes units)).flatten ++ carryContents st'
          = buffer.drop off0) ∧
      (∀ units : List (List Nat), units.getD u [] = buffer →
        ∀ bs ∈ es.map (emissionBytes units), bs.length = cs) ∧
      Inv cs (u + 1) st' ∧
      (∀ v o l, Emission.slice v o l ∈ es →
        v = u ∧ l = cs ∧ off0 ≤ o ∧
          o + cs ≤ (sliceOffsets cs buffer.length off0).2) ∧
      (∀ ev ∈ evts, ev.fromCarry = false ∧ ev.unit = u ∧
        (sliceOffsets cs buffer.length off0).2 ≤ ev.idx ∧ ev.idx < buffer.length) ∧
      (∀ v i, countFalseAt evts v i ≤ 1) ∧
      (∀ v i, countTrueAt evts v i = 0) ∧
      (∀ p ∈ st'.origins, p.1 = u ∧ CopyEvt.mk false p.1 p.2 ∈ evts) ∧
      evts.length + st'.origins.length
        ≤ 2 * (buffer.length - (sliceOffsets cs buffer.length off0).2) ∧
      st'.carryLength = buffer.length - (sliceOffsets cs buffer.length off0).2 := by
  have hb := sliceOffsets_bounds cs buffer.length hcs off0 hoff
  have hmem := sliceOffsets_mem cs buffer.length off0
  have hjoin := sliceOffsets_join cs buffer.length hcs buffer rfl off0 hoff
  have hmapbytes : ∀ units : List (List Nat), units.getD u [] = buffer →
      ((sliceOffsets cs buffer.length off0).1.map
          fun o => Emission.slice u o cs).map (emissionBytes units)
        = (sliceOffsets cs buffer.length off0).1.map
            fun o => (buffer.drop o).take cs := by
    intro units hu
    rw [List.map_map]
    refine List.map_congr_left fun o _ => ?_
    simp only [Function.comp_apply, emissionBytes, hu]
  have hslices : ∀ v o l,
      Emission.slice v o l ∈ ((sliceOffsets cs buffer.length off0).1.map
        fun o => Emission.slice u o cs) →
      v = u ∧ l = cs ∧ off0 ≤ o ∧
        o + cs ≤ (sliceOffsets cs buffer.length off0).2 := by
    intro v o l hin
    rcases List.mem_map.mp hin with ⟨o2, ho2, heq⟩
    rw [Emission.slice.injEq] at heq
    obtain ⟨h1, h2, h3⟩ := heq
    subst h1
    subst h2
    subst h3
    exact ⟨rfl, rfl, (hmem o2 ho2).1, (hmem o2 ho2).2⟩
  by_cases hrem : (sliceOffsets cs buffer.length off0).2 < buffer.length
  · -- a remainder is saved into the carry buffer
    have hbase : (cb.getD (List.replicate cs 0)).length = cs := by
      cases cb with
      | none => simp
      | some c => exact hcb c rfl
    have hsetok : 0 + (buffer.drop (sliceOffsets cs buffer.length off0).2).length
        ≤ (cb.getD (List.replicate cs 0)).length := by
      rw [hbase, List.length_drop]
      omega
    have hset : typedArraySet (cb.getD (List.replicate cs 0))
        (buffer.drop (sliceOffsets cs buffer.length off0).2) 0
        = some (buffer.drop (sliceOffsets cs buffer.length off0).2 ++
            (cb.getD (List.replicate cs 0)).drop
              (buffer.drop (sliceOffsets cs buffer.length off0).2).length) := by
      rw [typedArraySet_eq _ _ _ hsetok]
      simp
    have hremlen : (buffer.drop (sliceOffsets cs buffer.length off0).2).length
        = buffer.length - (sliceOffsets cs buffer.length off0).2 :=
      List.length_drop _ _
    have hremlt : (buffer.drop (sliceOffsets cs buffer.length off0).2).length < cs := by
      omega
    have hcb2len : (buffer.drop (sliceOffsets cs buffer.length off0).2 ++
        (cb.getD (List.replicate cs 0)).drop
          (buffer.drop (sliceOffsets cs buffer.length off0).2).length).length = cs := by
      simp only [List.length_append, List.length_drop, hbase]
      omega
    refine ⟨_, _, _, fastTail_eq_of_rem cs u cb buffer off0 _ hrem hset, ?_, ?_, ?_,
      hslices, ?_, ?_, ?_, ?_, ?_, ?_⟩
    · -- round-trip contents
      intro units hu
      rw [hmapbytes units hu, hjoin]
      have hcarry : carryContents
          ⟨some (buffer.drop (sliceOffsets cs buffer.length off0).2 ++
              (cb.getD (List.replicate cs 0)).drop
                (buffer.drop (sliceOffsets cs buffer.length off0).2).length),
            (buffer.drop (sliceOffsets cs buffer.length off0).2).length,
            (List.range (buffer.drop (sliceOffsets cs buffer.length off0).2).length).map
              fun j => (u, (sliceOffsets cs buffer.length off0).2 + j)⟩
          = buffer.drop (sliceOffsets cs buffer.length off0).2 := by
        unfold carryContents
        exact List.take_left' rfl
      rw [hcarry]
      have h1 : buffer.drop off0
          = (buffer.drop off0).take ((sliceOffsets cs buffer.length off0).2 - off0) ++
            (buffer.drop off0).drop ((sliceOffsets cs buffer.length off0).2 - off0) :=
        (List.take_append_drop _ _).symm
      rw [List.drop_drop] at h1
      have h2 : off0 + ((sliceOffsets cs buffer.length off0).2 - off0)
          = (sliceOffsets cs buffer.length off0).2 := by omega
      rw [h2] at h1
      exact h1.symm
    · -- chunk lengths
      intro units hu bs hbs
      rw [hmapbytes units hu] at hbs
      rcases List.mem_map.mp hbs with ⟨o, ho, rfl⟩
      have := hmem o ho
      rw [List.length_take, List.length_drop]
      omega
    · -- invariant
      refine ⟨?_, ?_, ?_, ?_, ?_⟩
      · intro c hc
        cases hc
        exact hcb2len
      · intro _
        rfl
      · exact hremlt
      · simp
      · intro p hp
        rcases List.mem_map.mp hp with ⟨j, _, rfl⟩
        omega
    · -- events description
      intro ev hev
      rcases List.mem_map.mp hev with ⟨j, hj, rfl⟩
      have hj' := List.mem_range.mp hj
      rw [List.length_drop] at hj'
      refine ⟨rfl, rfl, ?_, ?_⟩
      · show (sliceOffsets cs buffer.length off0).2 ≤
          (sliceOffsets cs buffer.length off0).2 + j
        omega
      · show (sliceOffsets cs buffer.length off0).2 + j < buffer.length
        omega
    · -- at most one direct read per byte
      intro v i
      rw [countFalseAt_range]
      split_ifs <;> omega
    · -- no carry reads here
      intro v i
      exact countTrueAt_range_false _ _ _ _ _
    · -- every origin has a matching direct-read event
      intro p hp
      rcases List.mem_map.mp hp with ⟨j, hj, rfl⟩
      refine ⟨rfl, List.mem_map.mpr ⟨j, hj, rfl⟩⟩
    · -- copy volume
      simp only [List.length_map, List.length_range]
      omega
    · -- carry length
      exact hremlen
  · -- no remainder: the buffer was consumed exactly
    have heq : (sliceOffsets cs buffer.length off0).2 = buffer.length := by omega
    refine ⟨_, _, _, fastTail_eq_no_rem cs u cb buffer off0 hrem, ?_, ?_, ?_,
      hslices, ?_, ?_, ?_, ?_, ?_, ?_⟩
    · intro units hu
      rw [hmapbytes units hu, hjoin]
      have hcarry : carryContents ⟨cb, 0, []⟩ = [] := by
        unfold carryContents
        exact List.take_zero _
      rw [hcarry, List.append_nil]
      have hlen : (sliceOffsets cs buffer.length off0).2 - off0
          = (buffer.drop off0).length := by
        rw [List.length_drop]
        omega
      rw [hlen, List.take_length]
    · intro units hu bs hbs
      rw [hmapbytes units hu] at hbs
      rcases List.mem_map.mp hbs with ⟨o, ho, rfl⟩
      have := hmem o ho
      rw [List.length_take, List.length_drop]
      omega
    · refine ⟨fun c hc => hcb c hc, ?_, hcs, rfl, ?_⟩
      · intro h
        simp at h
      · intro p hp
        exact absurd hp (List.not_mem_nil p)
    · intro ev hev
      exact absurd hev (List.not_mem_nil ev)
    · intro v i
      simp [countFalseAt]
    · intro v i
      simp [countTrueAt]
    · intro p hp
      exact absurd hp (List.not_mem_nil p)
    · simp
    · show (0 : Nat) = buffer.length - (sliceOffsets cs buffer.length off0).2
      omega

/-! ### `processPart` (the loop body of `chunkFrom`) -/

theorem countFalseAt_range0 (u n v i : Nat) :
    countFalseAt ((List.range n).map fun j => CopyEvt.mk false u j) v i
      = if v = u ∧ i < n then 1 else 0 := by
  have h : ((List.range n).map fun j => CopyEvt.mk false u j)
      = (List.range n).map fun j => CopyEvt.mk false u (0 + j) :=
    List.map_congr_left fun j _ => by rw [Nat.zero_add]
  rw [h, countFalseAt_range]
  split_ifs <;> omega

theorem processPart_eq_empty (cs u : Nat) (st : CarryState) (buffer : List Nat)
    (h : buffer.length = 0) :
    processPart cs u st buffer = .ok ([], st, []) := by
  unfold processPart
  rw [if_pos h]

theorem processPart_eq_nocarry (cs u : Nat) (st : CarryState) (buffer : List Nat)
    (h1 : ¬ buffer.length = 0) (h2 : ¬ 0 < st.carryLength) :
    processPart cs u st buffer = fastTail cs u st.carryBuffer buffer 0 := by
  unfold processPart
  rw [if_neg h1, if_neg h2]

theorem processPart_eq_merge (cs u : Nat) (st : CarryState) (buffer : List Nat)
    (h1 : ¬ buffer.length = 0) (h2 : 0 < st.carryLength)
    (cbuf : List Nat) (hcb : st.carryBuffer = some cbuf)
    (h3 : cs - st.carryLength ≤ buffer.length)
    (out1 out : List Nat)
    (hset1 : typedArraySet (List.replicate cs 0) (cbuf.take st.carryLength) 0
      = some out1)
    (hset2 : typedArraySet out1 (buffer.take (cs - st.carryLength)) st.carryLength
      = some out)
    (esF : List Emission) (stF : CarryState) (evtsF : List CopyEvt)
    (hft : fastTail cs u (some cbuf) buffer (cs - st.carryLength)
      = .ok (esF, stF, evtsF)) :
    processPart cs u st buffer = .ok (.owned out :: esF, stF,
      st.origins.map (fun o => ⟨true, o.1, o.2⟩) ++
        ((List.range (cs - st.carryLength)).map fun j => CopyEvt.mk false u j)
        ++ evtsF) := by
  unfold processPart
  rw [if_neg h1, if_pos h2, hcb]
  dsimp only
  rw [if_pos h3, hset1]
  dsimp only
  rw [hset2]
  dsimp only
  rw [hft]

theorem processPart_eq_accum (cs u : Nat) (st : CarryState) (buffer : List Nat)
    (h1 : ¬ buffer.length = 0) (h2 : 0 < st.carryLength)
    (cbuf : List Nat) (hcb : st.carryBuffer = some cbuf)
    (h3 : ¬ cs - st.carryLength ≤ buffer.length)
    (cb2 : List Nat)
    (hset : typedArraySet cbuf buffer st.carryLength = some cb2) :
    processPart cs u st buffer = .ok ([],
      ⟨some cb2, st.carryLength + buffer.length,
        st.origins ++ (List.range buffer.length).map fun j => (u, j)⟩,
      (List.range buffer.length).map fun j => CopyEvt.mk false u j) := by
  unfold processPart
  rw [if_neg h1, if_pos h2, hcb]
  dsimp only
  rw [if_neg h3, hset]

theorem processPart_spec (cs u : Nat) (st : CarryState) (buffer : List Nat)
    (hcs : 0 < cs) (hinv : Inv cs u st) :
    ∃ es st' evts,
      processPart cs u st buffer = .ok (es, st', evts) ∧
      (∀ units : List (List Nat), units.getD u [] = buffer →
        (es.map (emissionBytes units)).flatten ++ carryContents st'
          = carryContents st ++ buffer) ∧
      (∀ units : List (List Nat), units.getD u [] = buffer →
        ∀ bs ∈ es.map (emissionBytes units), bs.length = cs) ∧
      Inv cs (u + 1) st' ∧
      (∀ v o l, Emission.slice v o l ∈ es →
        v = u ∧ l = cs ∧ o + cs ≤ buffer.length) ∧
      (∀ ev ∈ evts,
        (ev.fromCarry = false → ev.unit = u ∧ ev.idx < buffer.length) ∧
        (ev.fromCarry = true → (ev.unit, ev.idx) ∈ st.origins)) ∧
      (∀ v i, countFalseAt evts v i ≤ 1) ∧
      (∀ p ∈ st'.origins,
        (p.1 = u ∧ CopyEvt.mk false p.1 p.2 ∈ evts) ∨ p ∈ st.origins) ∧
      (∀ v i, sliceCovered es v i → countFalseAt evts v i = 0) ∧
      evts.length + st'.origins.length
        ≤ st.origins.length + 2 * buffer.length := by
  obtain ⟨hinv1, hinv2, hinv3, hinv4, hinv5⟩ := hinv
  by_cases hemp : buffer.length = 0
  · -- empty buffer: skipped entirely
    refine ⟨[], st, [], processPart_eq_empty cs u st buffer hemp, ?_, ?_, ?_, ?_, ?_,
      ?_, ?_, ?_, ?_⟩
    · intro units _
      have : buffer = [] := List.length_eq_zero.mp hemp
      simp [this]
    · intro units _ bs hbs
      simp at hbs
    · exact ⟨hinv1, hinv2, hinv3, hinv4, fun p hp => Nat.lt_succ_of_lt (hinv5 p hp)⟩
    · intro v o l h
      simp at h
    · intro ev hev
      simp at hev
    · intro v i
      simp [countFalseAt]
    · intro p hp
      exact Or.inr hp
    · rintro v i ⟨o, l, h, -⟩
      simp at h
    · simp
  by_cases hcl : 0 < st.carryLength
  · -- a pending carry exists
    obtain ⟨cbuf, hcb⟩ := Option.isSome_iff_exists.mp (hinv2 hcl)
    have hcbl : cbuf.length = cs := hinv1 cbuf hcb
    have hcarrySt : carryContents st = cbuf.take st.carryLength := by
      unfold carryContents
      rw [hcb]
      rfl
    have hcarrylen : (cbuf.take st.carryLength).length = st.carryLength := by
      rw [List.length_take]
      omega
    by_cases hbig : cs - st.carryLength ≤ buffer.length
    · -- the new unit completes the pending chunk
      have hset1 : typedArraySet (List.replicate cs 0) (cbuf.take st.carryLength) 0
          = some (cbuf.take st.carryLength ++
              List.replicate (cs - st.carryLength) 0) := by
        rw [typedArraySet_eq _ _ _ (by simp [hcarrylen]; omega)]
        rw [List.take_zero, List.nil_append, Nat.zero_add, hcarrylen,
          List.drop_replicate]
      have hout1len : (cbuf.take st.carryLength ++
          List.replicate (cs - st.carryLength) 0).length = cs := by
        rw [List.length_append, hcarrylen, List.length_replicate]
        omega
      have htklen : (buffer.take (cs - st.carryLength)).length
          = cs - st.carryLength := by
        rw [List.length_take]
        omega
      have hset2 : typedArraySet
          (cbuf.take st.carryLength ++ List.replicate (cs - st.carryLength) 0)
          (buffer.take (cs - st.carryLength)) st.carryLength
          = some (cbuf.take st.carryLength ++ buffer.take (cs - st.carryLength)) := by
        rw [typedArraySet_eq _ _ _ (by rw [htklen, hout1len]; omega)]
        rw [htklen]
        rw [List.take_left' hcarrylen]
        have hdrop : (cbuf.take st.carryLength ++
            List.replicate (cs - st.carryLength) 0).drop
              (st.carryLength + (cs - st.carryLength)) = [] :=
          List.drop_eq_nil_of_le (by rw [hout1len]; omega)
        rw [hdrop, List.append_nil]
      obtain ⟨esF, stF, evtsF, hfeq, hcontF, hlensF, hinvF, hslicesF, hevF, hcf1F,
        hct0F, horigF, hphiF, hclF⟩ :=
        fastTail_spec cs u (some cbuf) buffer (cs - st.carryLength) hcs
          (by omega) (fun c hc => by cases hc; exact hcbl)
      have hb := sliceOffsets_bounds cs buffer.length hcs (cs - st.carryLength)
        (by omega)
      refine ⟨_, _, _,
        processPart_eq_merge cs u st buffer hemp hcl cbuf hcb hbig _ _ hset1 hset2
          esF stF evtsF hfeq, ?_, ?_, hinvF, ?_, ?_, ?_, ?_, ?_, ?_⟩
      · -- round-trip contents
        intro units hu
        rw [List.map_cons, List.flatten_cons]
        have h1 := hcontF units hu
        rw [List.append_assoc, h1, hcarrySt]
        show emissionBytes units (Emission.owned _) ++ _ = _
        unfold emissionBytes
        rw [List.append_assoc, List.take_append_drop]
      · -- chunk lengths
        intro units hu bs hbs
        rw [List.map_cons] at hbs
        rcases List.mem_cons.mp hbs with rfl | hbs2
        · show (emissionBytes units (Emission.owned _)).length = cs
          unfold emissionBytes
          rw [List.length_append, hcarrylen, htklen]
          omega
        · exact hlensF units hu bs hbs2
      · -- slices
        intro v o l h
        rcases List.mem_cons.mp h with heq | h2
        · exact absurd heq (by simp)
        · have := hslicesF v o l h2
          omega
      · -- events
        intro ev hev
        rcases List.mem_append.mp hev with hev1 | hevF2
        · rcases List.mem_append.mp hev1 with hevTr | hevRg
          · rcases List.mem_map.mp hevTr with ⟨p, hp, rfl⟩
            exact ⟨fun h => by simp at h, fun _ => hp⟩
          · rcases List.mem_map.mp hevRg with ⟨j, hj, rfl⟩
            have hj' := List.mem_range.mp hj
            exact ⟨fun _ => ⟨rfl, by show j < buffer.length; omega⟩,
              fun h => by simp at h⟩
        · have := hevF ev hevF2
          exact ⟨fun _ => ⟨this.2.1, this.2.2.2⟩, fun h => absurd this.1 (by rw [h]; simp)⟩
      · -- at most one direct read per byte
        intro v i
        rw [countFalseAt_append, countFalseAt_append, countFalseAt_true_events,
          countFalseAt_range0]
        have hle := hcf1F v i
        by_cases hvu : v = u ∧ i < cs - st.carryLength
        · rw [if_pos hvu]
          have : countFalseAt evtsF v i = 0 := by
            apply countFalseAt_eq_zero_of
            intro ev hev
            have h1 := hevF ev hev
            right
            right
            intro hidx
            rw [hidx] at h1
            omega
          omega
        · rw [if_neg hvu]
          omega
      · -- origins provenance
        intro p hp
        rcases horigF p hp with ⟨h1, h2⟩
        exact Or.inl ⟨h1, by
          apply List.mem_append.mpr
          exact Or.inr h2⟩
      · -- fast-path bytes are never copied
        rintro v i ⟨o, l, hsl, hoi, hio⟩
        rcases List.mem_cons.mp hsl with heq | hsl2
        · exact absurd heq (by simp)
        obtain ⟨hvu, hlcs, hoo, hocs⟩ := hslicesF v o l hsl2
        rw [countFalseAt_append, countFalseAt_append, countFalseAt_true_events,
          countFalseAt_range0, if_neg (by omega)]
        have hz : countFalseAt evtsF v i = 0 := by
          apply countFalseAt_eq_zero_of
          intro ev hev
          obtain ⟨-, -, hr2, -⟩ := hevF ev hev
          right
          right
          omega
        omega
      · -- copy volume
        rw [List.length_append, List.length_append, List.length_map,
          List.length_map, List.length_range]
        have h1 := hphiF
        have h2 := hb.1
        omega
    · -- the new unit is accumulated into the carry
      have hsetok : st.carryLength + buffer.length ≤ cbuf.length := by
        rw [hcbl]
        omega
      have hset : typedArraySet cbuf buffer st.carryLength
          = some (cbuf.take st.carryLength ++ buffer ++
              cbuf.drop (st.carryLength + buffer.length)) :=
        typedArraySet_eq _ _ _ hsetok
      have hcb2len : (cbuf.take st.carryLength ++ buffer ++
          cbuf.drop (st.carryLength + buffer.length)).length = cs := by
        simp only [List.length_append, List.length_drop, hcarrylen, hcbl]
        omega
      refine ⟨_, _, _,
        processPart_eq_accum cs u st buffer hemp hcl cbuf hcb hbig _ hset,
        ?_, ?_, ?_, ?_, ?_, ?_, ?_, ?_, ?_⟩
      · -- contents: nothing emitted, carry grows
        intro units _
        rw [List.map_nil, List.flatten_nil, List.nil_append]
        unfold carryContents
        show ((cbuf.take st.carryLength ++ buffer ++
            cbuf.drop (st.carryLength + buffer.length)).take
              (st.carryLength + buffer.length)) = _
        rw [List.take_left' (by rw [List.length_append, hcarrylen])]
        rw [hcb]
        rfl
      · intro units _ bs hbs
        simp at hbs
      · -- invariant
        refine ⟨?_, ?_, ?_, ?_, ?_⟩
        · intro c hc
          cases hc
          exact hcb2len
        · intro _
          rfl
        · show st.carryLength + buffer.length < cs
          omega
        · show (st.origins ++ _).length = st.carryLength + buffer.length
          rw [List.length_append, hinv4, List.length_map, List.length_range]
        · intro p hp
          rcases List.mem_append.mp hp with hp1 | hp2
          · exact Nat.lt_succ_of_lt (hinv5 p hp1)
          · rcases List.mem_map.mp hp2 with ⟨j, _, rfl⟩
            omega
      · intro v o l h
        simp at h
      · intro ev hev
        rcases List.mem_map.mp hev with ⟨j, hj, rfl⟩
        have hj' := List.mem_range.mp hj
        exact ⟨fun _ => ⟨rfl, hj'⟩, fun h => by simp at h⟩
      · intro v i
        rw [countFalseAt_range0]
        split_ifs <;> omega
      · intro p hp
        rcases List.mem_append.mp hp with hp1 | hp2
        · exact Or.inr hp1
        · rcases List.mem_map.mp hp2 with ⟨j, hj, rfl⟩
          exact Or.inl ⟨rfl, List.mem_map.mpr ⟨j, hj, rfl⟩⟩
      · rintro v i ⟨o, l, h, -⟩
        simp at h
      · rw [List.length_map, List.length_range, List.length_append,
          List.length_map, List.length_range]
        omega
  · -- no pending carry: straight to the fast path
    have hcl0 : st.carryLength = 0 := by omega
    obtain ⟨esF, stF, evtsF, hfeq, hcontF, hlensF, hinvF, hslicesF, hevF, hcf1F,
      hct0F, horigF, hphiF, hclF⟩ :=
      fastTail_spec cs u st.carryBuffer buffer 0 hcs (Nat.zero_le _) hinv1
    have hb := sliceOffsets_bounds cs buffer.length hcs 0 (Nat.zero_le _)
    have hcarrySt : carryContents st = [] := by
      unfold carryContents
      rw [hcl0, List.take_zero]
    refine ⟨_, _, _, processPart_eq_nocarry cs u st buffer hemp hcl ▸ hfeq,
      ?_, ?_, hinvF, ?_, ?_, ?_, ?_, ?_, ?_⟩
    · intro units hu
      rw [hcontF units hu, hcarrySt, List.nil_append, List.drop_zero]
    · exact hlensF
    · intro v o l h
      have := hslicesF v o l h
      omega
    · intro ev hev
      have := hevF ev hev
      exact ⟨fun _ => ⟨this.2.1, this.2.2.2⟩,
        fun h => absurd this.1 (by rw [h]; simp)⟩
    · exact hcf1F
    · intro p hp
      rcases horigF p hp with ⟨h1, h2⟩
      exact Or.inl ⟨h1, h2⟩
    · rintro v i ⟨o, l, hsl, hoi, hio⟩
      obtain ⟨hvu, hlcs, hoo, hocs⟩ := hslicesF v o l hsl
      apply countFalseAt_eq_zero_of
      intro ev hev
      obtain ⟨-, -, hr2, -⟩ := hevF ev hev
      right
      right
      omega
    · rw [hinv4, hcl0]
      omega

/-! ### `runFrom` (the whole loop plus the final carry flush) -/

theorem runFrom_nil_flush (cs u : Nat) (st : CarryState) (cbuf : List Nat)
    (hcl : 0 < st.carryLength) (hcb : st.carryBuffer = some cbuf) :
    runFrom cs [] u st = .ok ([.owned (cbuf.take st.carryLength)], []) := by
  unfold runFrom
  rw [if_pos hcl, hcb]

theorem runFrom_nil_empty (cs u : Nat) (st : CarryState)
    (hcl : ¬ 0 < st.carryLength) :
    runFrom cs [] u st = .ok ([], []) := by
  unfold runFrom
  rw [if_neg hcl]

theorem runFrom_cons_view (cs u : Nat) (st : CarryState) (b : List Nat)
    (items : List JSItem) (es1 : List Emission) (st1 : CarryState)
    (evts1 : List CopyEvt)
    (heq : processPart cs u st b = .ok (es1, st1, evts1)) :
    runFrom cs (JSItem.view b :: items) u st =
      match runFrom cs items (u + 1) st1 with
      | .error e => .error e
      | .ok (es2, evts2) => .ok (es1 ++ es2, evts1 ++ evts2) := by
  simp only [runFrom]
  rw [heq]

theorem getD_of_drop_cons (units : List (List Nat)) (u : Nat) (b : List Nat)
    (rest : List (List Nat)) (h : units.drop u = b :: rest) :
    units.getD u [] = b := by
  rw [List.getD_eq_getElem?_getD, ← List.head?_drop, h]
  rfl

theorem drop_succ_of_drop_cons (units : List (List Nat)) (u : Nat) (b : List Nat)
    (rest : List (List Nat)) (h : units.drop u = b :: rest) :
    units.drop (u + 1) = rest := by
  rw [← List.drop_drop 1 u units, h, List.drop_one]
  rfl

theorem lt_length_of_drop_cons (units : List (List Nat)) (u : Nat) (b : List Nat)
    (rest : List (List Nat)) (h : units.drop u = b :: rest) :
    u < units.length := by
  by_contra hc
  rw [List.drop_eq_nil_of_le (by omega)] at h
  exact List.noConfusion h

theorem mem_of_getLast?_eq {l : List (List Nat)} {a : List Nat}
    (h : l.getLast? = some a) : a ∈ l := by
  rw [List.getLast?_eq_getElem?] at h
  exact List.getElem?_mem h

theorem runFrom_spec (cs : Nat) (units : List (List Nat)) (hcs : 0 < cs) :
    ∀ (rest : List (List Nat)) (u : Nat) (st : CarryState),
      units.drop u = rest → Inv cs u st →
      ∃ es evts,
        runFrom cs (rest.map JSItem.view) u st = .ok (es, evts) ∧
        ((es.map (emissionBytes units)).flatten = carryContents st ++ rest.flatten) ∧
        (∀ bs ∈ (es.map (emissionBytes units)).dropLast, bs.length = cs) ∧
        (∀ bs, (es.map (emissionBytes units)).getLast? = some bs →
          1 ≤ bs.length ∧ bs.length ≤ cs) ∧
        (∀ v o l, Emission.slice v o l ∈ es →
          u ≤ v ∧ v < units.length ∧ l = cs ∧ o + cs ≤ (units.getD v []).length) ∧
        (∀ ev ∈ evts, (ev.fromCarry = false → u ≤ ev.unit) ∧
          (ev.fromCarry = true →
            CopyEvt.mk false ev.unit ev.idx ∈ evts ∨ (ev.unit, ev.idx) ∈ st.origins)) ∧
        (∀ v i, countFalseAt evts v i ≤ 1) ∧
        (∀ v i, sliceCovered es v i → countFalseAt evts v i = 0) ∧
        evts.length ≤ st.origins.length + 2 * rest.flatten.length := by
  intro rest
  induction rest with
  | nil =>
    intro u st hdrop hinv
    obtain ⟨hinv1, hinv2, hinv3, hinv4, hinv5⟩ := hinv
    by_cases hcl : 0 < st.carryLength
    · obtain ⟨cbuf, hcb⟩ := Option.isSome_iff_exists.mp (hinv2 hcl)
      have hcbl := hinv1 cbuf hcb
      have htl : (cbuf.take st.carryLength).length = st.carryLength := by
        rw [List.length_take]
        omega
      refine ⟨_, _, runFrom_nil_flush cs u st cbuf hcl hcb, ?_, ?_, ?_, ?_, ?_,
        ?_, ?_, ?_⟩
      · simp [emissionBytes, carryContents, hcb]
      · intro bs hbs
        simp at hbs
      · intro bs hbs
        have hx : (([Emission.owned (cbuf.take st.carryLength)]).map
            (emissionBytes units)).getLast?
            = some (cbuf.take st.carryLength) := rfl
        rw [hx] at hbs
        cases hbs
        rw [htl]
        omega
      · intro v o l h
        simp at h
      · intro ev hev
        simp at hev
      · intro v i
        simp [countFalseAt]
      · intro v i _
        simp [countFalseAt]
      · simp
    · have hcl0 : st.carryLength = 0 := by omega
      refine ⟨_, _, runFrom_nil_empty cs u st hcl, ?_, ?_, ?_, ?_, ?_, ?_, ?_, ?_⟩
      · simp [carryContents, hcl0]
      · intro bs hbs
        simp at hbs
      · intro bs hbs
        simp at hbs
      · intro v o l h
        simp at h
      · intro ev hev
        simp at hev
      · intro v i
        simp [countFalseAt]
      · intro v i _
        simp [countFalseAt]
      · simp
  | cons b rest2 ih =>
    intro u st hdrop hinv
    have hu_b : units.getD u [] = b := getD_of_drop_cons units u b rest2 hdrop
    have hdrop2 : units.drop (u + 1) = rest2 :=
      drop_succ_of_drop_cons units u b rest2 hdrop
    have hulen : u < units.length := lt_length_of_drop_cons units u b rest2 hdrop
    obtain ⟨es1, st1, evts1, hpeq, hcont1, hlens1, hinvS, hslices1, hev1, hcf1,
      horig1, hS1, hphi1⟩ := processPart_spec cs u st b hcs hinv
    obtain ⟨es2, evts2, hreq, hcont2, hdl2, hlast2, hslices2, hev2, hcf2, hcov2,
      hphi2⟩ := ih (u + 1) st1 hdrop2 hinvS
    refine ⟨es1 ++ es2, evts1 ++ evts2, ?_, ?_, ?_, ?_, ?_, ?_, ?_, ?_, ?_⟩
    · rw [List.map_cons, runFrom_cons_view cs u st b _ es1 st1 evts1 hpeq, hreq]
    · -- round-trip contents
      rw [List.map_append, List.flatten_append, hcont2, ← List.append_assoc,
        hcont1 units hu_b, List.flatten_cons, List.append_assoc]
    · -- all chunks but the last have length cs
      intro bs hbs
      rw [List.map_append] at hbs
      by_cases hL2 : es2.map (emissionBytes units) = []
      · rw [hL2, List.append_nil] at hbs
        exact hlens1 units hu_b bs (List.mem_of_mem_dropLast hbs)
      · rw [List.dropLast_append_of_ne_nil _ hL2] at hbs
        rcases List.mem_append.mp hbs with h1 | h2
        · exact hlens1 units hu_b bs h1
        · exact hdl2 bs h2
    · -- the last chunk has length in [1, cs]
      intro bs hbs
      rw [List.map_append] at hbs
      by_cases hL2 : es2.map (emissionBytes units) = []
      · rw [hL2, List.append_nil] at hbs
        have hmem := mem_of_getLast?_eq hbs
        have := hlens1 units hu_b bs hmem
        omega
      · rw [List.getLast?_append] at hbs
        obtain ⟨x, hx⟩ := Option.isSome_iff_exists.mp
          (List.getLast?_isSome.mpr hL2)
        rw [hx, Option.or_some] at hbs
        injection hbs with hxb
        rw [← hxb]
        exact hlast2 x hx
    · -- slice provenance
      intro v o l h
      rcases List.mem_append.mp h with h1 | h2
      · obtain ⟨hvu, hlcs, hocs⟩ := hslices1 v o l h1
        subst hvu
        rw [hu_b]
        exact ⟨le_refl _, hulen, hlcs, hocs⟩
      · obtain ⟨huv, hvlen, hlcs, hocs⟩ := hslices2 v o l h2
        exact ⟨by omega, hvlen, hlcs, hocs⟩
    · -- event provenance
      intro ev hev
      rcases List.mem_append.mp hev with h1 | h2
      · refine ⟨fun hfc => le_of_eq ((hev1 ev h1).1 hfc).1.symm, fun hfc => ?_⟩
        exact Or.inr ((hev1 ev h1).2 hfc)
      · refine ⟨fun hfc => le_trans (by omega) ((hev2 ev h2).1 hfc), fun hfc => ?_⟩
        rcases (hev2 ev h2).2 hfc with hL | hR
        · exact Or.inl (List.mem_append.mpr (Or.inr hL))
        · rcases horig1 (ev.unit, ev.idx) hR with ⟨h3, h4⟩ | h5
          · exact Or.inl (List.mem_append.mpr (Or.inl h4))
          · exact Or.inr h5
    · -- each byte read from its unit at most once
      intro v i
      rw [countFalseAt_append]
      have h1 := hcf1 v i
      have h2 := hcf2 v i
      by_cases hpos : 0 < countFalseAt evts1 v i
      · obtain ⟨ev, hmem, hfc, hunit, hidx⟩ :=
          (countFalseAt_pos_iff evts1 v i).mp hpos
        have hvu : v = u := by
          have := ((hev1 ev hmem).1 hfc).1
          omega
        have hz : countFalseAt evts2 v i = 0 := by
          apply countFalseAt_eq_zero_of
          intro ev2 hm2
          cases hfc2 : ev2.fromCarry
          · right
            left
            have := (hev2 ev2 hm2).1 hfc2
            omega
          · left
            rfl
        omega
      · have hz : countFalseAt evts1 v i = 0 := by omega
        omega
    · -- fast-path bytes are never read-copied
      rintro v i ⟨o, l, hsl, hoi, hio⟩
      rw [countFalseAt_append]
      rcases List.mem_append.mp hsl with h1 | h2
      · obtain ⟨hvu, hlcs, hocs⟩ := hslices1 v o l h1
        have hz1 : countFalseAt evts1 v i = 0 := hS1 v i ⟨o, l, h1, hoi, hio⟩
        have hz2 : countFalseAt evts2 v i = 0 := by
          apply countFalseAt_eq_zero_of
          intro ev2 hm2
          cases hfc2 : ev2.fromCarry
          · right
            left
            have := (hev2 ev2 hm2).1 hfc2
            omega
          · left
            rfl
        omega
      · obtain ⟨huv, hvlen, hlcs, hocs⟩ := hslices2 v o l h2
        have hz2 : countFalseAt evts2 v i = 0 := hcov2 v i ⟨o, l, h2, hoi, hio⟩
        have hz1 : countFalseAt evts1 v i = 0 := by
          apply countFalseAt_eq_zero_of
          intro ev1 hm1
          cases hfc1 : ev1.fromCarry
          · right
            left
            have := ((hev1 ev1 hm1).1 hfc1).1
            omega
          · left
            rfl
        omega
    · -- linear copy volume
      rw [List.length_append, List.flatten_cons, List.length_append]
      omega

theorem runFrom_error (cs : Nat) (hcs : 0 < cs) :
    ∀ (items : List JSItem) (u : Nat) (st : CarryState), Inv cs u st →
      allViews items = false → ∃ e, runFrom cs items u st = .error e := by
  intro items
  induction items with
  | nil =>
    intro u st _ hav
    simp [allViews] at hav
  | cons item rest ih =>
    intro u st hinv hav
    cases item with
    | nonView => exact ⟨.itemType, rfl⟩
    | thenable r => exact ⟨.itemType, rfl⟩
    | view b =>
      have hav2 : allViews rest = false := by
        simpa [allViews] using hav
      obtain ⟨es1, st1, evts1, hpeq, -, -, hinvS, -, -, -, -, -, -⟩ :=
        processPart_spec cs u st b hcs hinv
      obtain ⟨e, he⟩ := ih (u + 1) st1 hinvS hav2
      refine ⟨e, ?_⟩
      rw [runFrom_cons_view cs u st b rest es1 st1 evts1 hpeq, he]

theorem eq_map_view_of_allViews :
    ∀ (items : List JSItem), allViews items = true →
      items = (items.map itemBytes).map JSItem.view := by
  intro items
  induction items with
  | nil =>
    intro _
    rfl
  | cons item rest ih =>
    intro h
    cases item with
    | nonView => simp [allViews] at h
    | thenable r => simp [allViews] at h
    | view b =>
      have h2 : allViews rest = true := by
        simpa [allViews] using h
      rw [List.map_cons, List.map_cons, ← ih h2]
      rfl

theorem initState_inv (cs : Nat) (hcs : 0 < cs) (u : Nat) : Inv cs u initState := by
  refine ⟨?_, ?_, hcs, rfl, ?_⟩
  · intro cb hcb
    exact absurd hcb (by simp [initState])
  · intro h
    simp [initState] at h
  · intro p hp
    simp [initState] at hp

/-! ### `runStateFrom` (reachable mid-run states) -/

theorem runStateFrom_cons (cs u : Nat) (st : CarryState) (b : List Nat)
    (rest : List (List Nat)) (es1 : List Emission) (st1 : CarryState)
    (evts1 : List CopyEvt)
    (heq : processPart cs u st b = .ok (es1, st1, evts1)) :
    runStateFrom cs (b :: rest) u st = runStateFrom cs rest (u + 1) st1 := by
  simp only [runStateFrom]
  rw [heq]

theorem runStateFrom_inv (cs : Nat) (hcs : 0 < cs) :
    ∀ (unitsList : List (List Nat)) (u : Nat) (st st2 : CarryState),
      Inv cs u st → runStateFrom cs unitsList u st = .ok st2 →
      ∃ u2, Inv cs u2 st2 := by
  intro unitsList
  induction unitsList with
  | nil =>
    intro u st st2 hinv heq
    injection heq with h
    exact ⟨u, h ▸ hinv⟩
  | cons b rest ih =>
    intro u st st2 hinv heq
    obtain ⟨es1, st1, evts1, hpeq, -, -, hinvS, -, -, -, -, -, -⟩ :=
      processPart_spec cs u st b hcs hinv
    rw [runStateFrom_cons cs u st b rest es1 st1 evts1 hpeq] at heq
    exact ih (u + 1) st1 st2 hinvS heq

/-! ### Processing of already-uniform chunks (for idempotence) -/

theorem processPart_full (cs u : Nat) (st : CarryState) (b : List Nat)
    (hcs : 0 < cs) (hbcs : b.length = cs) (hcl0 : st.carryLength = 0) :
    processPart cs u st b
      = .ok ([Emission.slice u 0 cs], ⟨st.carryBuffer, 0, []⟩, []) := by
  have hb0 : ¬ b.length = 0 := by omega
  have hso : sliceOffsets cs b.length 0 = ([0], cs) := by
    rw [sliceOffsets, dif_pos ⟨hcs, by omega⟩]
    dsimp only
    rw [sliceOffsets, dif_neg (by omega)]
    simp
  have hnorem : ¬ (sliceOffsets cs b.length 0).2 < b.length := by
    rw [hso]
    dsimp only
    omega
  have hft := fastTail_eq_no_rem cs u st.carryBuffer b 0 hnorem
  rw [hso] at hft
  dsimp only [List.map] at hft
  rw [processPart_eq_nocarry cs u st b hb0 (by omega), hft]

theorem processPart_short (cs u : Nat) (st : CarryState) (b : List Nat)
    (hcs : 0 < cs) (hb1 : 1 ≤ b.length) (hblt : b.length < cs)
    (hcl0 : st.carryLength = 0)
    (hbaselen : (st.carryBuffer.getD (List.replicate cs 0)).length = cs) :
    processPart cs u st b = .ok ([],
      ⟨some (b ++ (st.carryBuffer.getD (List.replicate cs 0)).drop b.length),
        b.length, (List.range b.length).map fun j => (u, j)⟩,
      (List.range b.length).map fun j => CopyEvt.mk false u j) := by
  have hb0 : ¬ b.length = 0 := by omega
  have hso : sliceOffsets cs b.length 0 = ([], 0) := by
    rw [sliceOffsets, dif_neg (by omega)]
  have hrem : (sliceOffsets cs b.length 0).2 < b.length := by
    rw [hso]
    dsimp only
    omega
  have hsetok : 0 + (b.drop (sliceOffsets cs b.length 0).2).length
      ≤ (st.carryBuffer.getD (List.replicate cs 0)).length := by
    rw [hso, hbaselen]
    dsimp only
    rw [List.drop_zero]
    omega
  have hset := typedArraySet_eq (st.carryBuffer.getD (List.replicate cs 0))
    (b.drop (sliceOffsets cs b.length 0).2) 0 hsetok
  have hft := fastTail_eq_of_rem cs u st.carryBuffer b 0 _ hrem hset
  rw [hso] at hft
  dsimp only [List.map] at hft
  simp only [List.drop_zero, List.take_zero, List.nil_append, Nat.zero_add] at hft
  rw [processPart_eq_nocarry cs u st b hb0 (by omega), hft]

theorem runFrom_identity (cs : Nat) (units : List (List Nat)) (hcs : 0 < cs) :
    ∀ (rest : List (List Nat)) (u : Nat) (st : CarryState),
      units.drop u = rest → Inv cs u st → st.carryLength = 0 →
      (∀ bs ∈ rest.dropLast, bs.length = cs) →
      (∀ bs, rest.getLast? = some bs → 1 ≤ bs.length ∧ bs.length ≤ cs) →
      ∃ es evts, runFrom cs (rest.map JSItem.view) u st = .ok (es, evts) ∧
        es.map (emissionBytes units) = rest := by
  intro rest
  induction rest with
  | nil =>
    intro u st _ _ hcl0 _ _
    exact ⟨[], [], runFrom_nil_empty cs u st (by omega), rfl⟩
  | cons b rest2 ih =>
    intro u st hdrop hinv hcl0 hdl hlast
    have hu_b : units.getD u [] = b := getD_of_drop_cons units u b rest2 hdrop
    have hdrop2 : units.drop (u + 1) = rest2 :=
      drop_succ_of_drop_cons units u b rest2 hdrop
    obtain ⟨hinv1, hinv2, hinv3, hinv4, hinv5⟩ := hinv
    by_cases hbcs : b.length = cs
    · -- a full chunk is passed through as a single direct slice
      have hpeq := processPart_full cs u st b hcs hbcs hcl0
      have hinvS : Inv cs (u + 1) ⟨st.carryBuffer, 0, []⟩ := by
        refine ⟨hinv1, ?_, hcs, rfl, ?_⟩
        · intro h
          simp at h
        · intro p hp
          simp at hp
      have hdl2 : ∀ bs ∈ rest2.dropLast, bs.length = cs := by
        intro bs hbs
        apply hdl
        cases rest2 with
        | nil => simp at hbs
        | cons c r =>
          rw [show (b :: c :: r).dropLast = b :: (c :: r).dropLast from rfl]
          exact List.mem_cons_of_mem _ hbs
      have hlast2 : ∀ bs, rest2.getLast? = some bs →
          1 ≤ bs.length ∧ bs.length ≤ cs := by
        intro bs hbs
        apply hlast
        cases rest2 with
        | nil => simp at hbs
        | cons c r =>
          rw [List.getLast?_cons_cons]
          exact hbs
      obtain ⟨es2, evts2, hreq, hmap2⟩ :=
        ih (u + 1) ⟨st.carryBuffer, 0, []⟩ hdrop2 hinvS rfl hdl2 hlast2
      refine ⟨Emission.slice u 0 cs :: es2, [] ++ evts2, ?_, ?_⟩
      · rw [List.map_cons, runFrom_cons_view cs u st b _ _ _ _ hpeq, hreq]
        rfl
      · rw [List.map_cons, hmap2]
        show ((units.getD u []).drop 0).take cs :: rest2 = b :: rest2
        rw [hu_b, List.drop_zero, ← hbcs, List.take_length]
    · -- a short final chunk goes through the carry buffer and is flushed
      have hrest2 : rest2 = [] := by
        cases rest2 with
        | nil => rfl
        | cons c r =>
          exfalso
          apply hbcs
          apply hdl
          rw [show (b :: c :: r).dropLast = b :: (c :: r).dropLast from rfl]
          exact List.mem_cons_self _ _
      subst hrest2
      have hb1 : 1 ≤ b.length ∧ b.length ≤ cs := hlast b rfl
      have hblt : b.length < cs := by omega
      have hbaselen : (st.carryBuffer.getD (List.replicate cs 0)).length = cs := by
        cases hcb : st.carryBuffer with
        | none => simp
        | some c =>
          rw [Option.getD_some]
          exact hinv1 c hcb
      have hpeq := processPart_short cs u st b hcs hb1.1 hblt hcl0 hbaselen
      have hflush := runFrom_nil_flush cs (u + 1)
        ⟨some (b ++ (st.carryBuffer.getD (List.replicate cs 0)).drop b.length),
          b.length, (List.range b.length).map fun j => (u, j)⟩
        (b ++ (st.carryBuffer.getD (List.replicate cs 0)).drop b.length)
        (by dsimp only; omega) rfl
      refine ⟨[] ++ [Emission.owned ((b ++
          (st.carryBuffer.getD (List.replicate cs 0)).drop b.length).take
            b.length)],
        ((List.range b.length).map fun j => CopyEvt.mk false u j) ++ [], ?_, ?_⟩
      · rw [List.map_cons, List.map_nil,
          runFrom_cons_view cs u st b _ _ _ _ hpeq, hflush]
      · rw [List.take_left' rfl]
        rfl

/-! ### The asynchronous duplicate is the same algorithm -/

theorem fastTailA_eq_fastTail : ∀ (cs u : Nat) (cb : Option (List Nat))
    (buffer : List Nat) (off0 : Nat),
    fastTailA cs u cb buffer off0 = fastTail cs u cb buffer off0 :=
  fun _ _ _ _ _ => rfl

theorem processPartA_eq_processPart : ∀ (cs u : Nat) (st : CarryState)
    (buffer : List Nat),
    processPartA cs u st buffer = processPart cs u st buffer :=
  fun _ _ _ _ => rfl

theorem runFromA_eq_runFrom (cs : Nat) :
    ∀ (items : List JSItem) (u : Nat) (st : CarryState),
      runFromA cs items u st = runFrom cs items u st := by
  intro items
  induction items with
  | nil =>
    intro u st
    rfl
  | cons item rest ih =>
    intro u st
    cases item with
    | nonView => rfl
    | thenable r => rfl
    | view b =>
      simp only [runFromA, runFrom]
      rw [processPartA_eq_processPart]
      cases hp : processPart cs u st b with
      | error e => rfl
      | ok x =>
        obtain ⟨es1, st1, evts1⟩ := x
        dsimp only
        rw [ih]

theorem chunkFromAsyncCore_eq (cs : Nat) (units : List (List Nat)) :
    chunkFromAsyncCore cs units = chunkFromCore cs units := by
  unfold chunkFromAsyncCore chunkFromCore
  rw [runFromA_eq_runFrom]

theorem runStateFromA_eq (cs : Nat) :
    ∀ (unitsList : List (List Nat)) (u : Nat) (st : CarryState),
      runStateFromA cs unitsList u st = runStateFrom cs unitsList u st := by
  intro unitsList
  induction unitsList with
  | nil =>
    intro u st
    rfl
  | cons b rest ih =>
    intro u st
    simp only [runStateFromA, runStateFrom]
    rw [processPartA_eq_processPart]
    cases hp : processPart cs u st b with
    | error e => rfl
    | ok x =>
      obtain ⟨es1, st1, evts1⟩ := x
      dsimp only
      rw [ih]

theorem viewContent_set (data : List Nat) (o n p b : Nat)
    (hop : o ≤ p) (hpn : p < o + n) (hn : o + n ≤ data.length) :
    viewContent (data.set p b) (o, n) = (viewContent data (o, n)).set (p - o) b := by
  unfold viewContent
  dsimp only
  rw [List.drop_set, if_neg (by omega), take_set_comm _ _ _ _ (by omega)]

theorem viewContent_set_getD (data : List Nat) (o n p b : Nat)
    (hop : o ≤ p) (hpn : p < o + n) (hn : o + n ≤ data.length) :
    (viewContent (data.set p b) (o, n)).getD (p - o) 0 = b := by
  rw [viewContent_set data o n p b hop hpn hn]
  have hlen : (viewContent data (o, n)).length = n := by
    unfold viewContent
    simp only [List.length_take, List.length_drop]
    omega
  rw [List.getD_eq_getElem?_getD, List.getElem?_set, if_pos rfl, if_pos (by omega)]
  rfl

/-! ### Small facts used to assemble the claim theorems -/

theorem carryContents_initState : carryContents initState = [] := rfl

theorem dropLast_append_of_getLast? {l : List (List Nat)} {x : List Nat}
    (h : l.getLast? = some x) : l.dropLast ++ [x] = l := by
  induction l with
  | nil => simp at h
  | cons a rest ih =>
    cases rest with
    | nil =>
      simp at h
      simp [h]
    | cons b r =>
      rw [List.getLast?_cons_cons] at h
      rw [show (a :: b :: r).dropLast = a :: (b :: r).dropLast from rfl]
      rw [List.cons_append, ih h]

theorem getLast?_of_ne_nil {l : List (List Nat)} (h : l ≠ []) :
    ∃ x, l.getLast? = some x := by
  cases hx : l.getLast? with
  | none => exact absurd (List.getLast?_eq_none_iff.mp hx) h
  | some x => exact ⟨x, rfl⟩

theorem chunkFromCore_of_runFrom (cs : Nat) (units : List (List Nat))
    (es : List Emission) (evts : List CopyEvt)
    (hrun : runFrom cs (units.map JSItem.view) 0 initState = .ok (es, evts)) :
    chunkFromCore cs units = .ok (es.map (emissionBytes units)) := by
  unfold chunkFromCore
  rw [hrun]

/-! ## The claims -/

/-- Claim C1: for every finite sequence of input units and every positive
safe-integer chunk size, concatenating the chunks emitted by `chunkFrom`
(equivalently `chunkFromAsync`) in emission order yields exactly the
concatenation of the byte contents of the input units in consumption
order — no bytes dropped, duplicated, or reordered. -/
theorem chunkFrom_roundtrip (units : List (List Nat)) (cs : Nat)
    (hcs : 0 < cs) (hsafe : cs ≤ maxSafeInteger) :
    ∃ out, chunkFromCore cs units = .ok out ∧
      chunkFromAsyncCore cs units = .ok out ∧
      out.flatten = units.flatten := by
  obtain ⟨es, evts, hrun, hcont, -, -, -, -, -, -, -⟩ :=
    runFrom_spec cs units hcs units 0 initState (List.drop_zero units)
      (initState_inv cs hcs 0)
  refine ⟨es.map (emissionBytes units), chunkFromCore_of_runFrom cs units es evts hrun,
    ?_, ?_⟩
  · rw [chunkFromAsyncCore_eq]
    exact chunkFromCore_of_runFrom cs units es evts hrun
  · rw [hcont, carryContents_initState, List.nil_append]

/-- Witness for C1 at a concrete input: re-chunking `[[1], [2,3,4], [5]]`
with chunk size 2 round-trips. -/
theorem chunkFrom_roundtrip_witness :
    ∃ out, chunkFromCore 2 [[1], [2, 3, 4], [5]] = .ok out ∧
      chunkFromAsyncCore 2 [[1], [2, 3, 4], [5]] = .ok out ∧
      out.flatten = ([[1], [2, 3, 4], [5]] : List (List Nat)).flatten :=
  chunkFrom_roundtrip [[1], [2, 3, 4], [5]] 2 (by norm_num)
    (by norm_num [maxSafeInteger])

/-- Claim C2: every chunk emitted by `chunkFrom` has length exactly
`chunkSize` except the last, whose length is in `[1, chunkSize]`; no
final short chunk is emitted when the total input byte length is zero or
an exact multiple of `chunkSize`, and an empty source yields zero
chunks. -/
theorem chunkFrom_length_invariant (units : List (List Nat)) (cs : Nat)
    (hcs : 0 < cs) (hsafe : cs ≤ maxSafeInteger) (out : List (List Nat))
    (hout : chunkFromCore cs units = .ok out) :
    (∀ bs ∈ out.dropLast, bs.length = cs) ∧
    (∀ bs, out.getLast? = some bs → 1 ≤ bs.length ∧ bs.length ≤ cs) ∧
    (units.flatten.length % cs = 0 → ∀ bs ∈ out, bs.length = cs) ∧
    (units.flatten.length = 0 → out = []) := by
  obtain ⟨es, evts, hrun, hcont, hdl, hlastL, -, -, -, -, -⟩ :=
    runFrom_spec cs units hcs units 0 initState (List.drop_zero units)
      (initState_inv cs hcs 0)
  rw [chunkFromCore_of_runFrom cs units es evts hrun] at hout
  injection hout with hh
  subst hh
  rw [carryContents_initState, List.nil_append] at hcont
  refine ⟨hdl, hlastL, ?_, ?_⟩
  · intro hmod bs hbs
    have hout0 : es.map (emissionBytes units) ≠ [] := by
      intro h
      rw [h] at hbs
      simp at hbs
    obtain ⟨x, hx⟩ := getLast?_of_ne_nil hout0
    have hxlen := hlastL x hx
    have hsum2 : (List.map List.length (es.map (emissionBytes units))).sum
        = (es.map (emissionBytes units)).dropLast.length * cs + x.length := by
      conv_lhs => rw [← dropLast_append_of_getLast? hx]
      rw [List.map_append, List.sum_append, sum_of_const_lengths _ cs hdl]
      simp
    have hsum : units.flatten.length
        = (es.map (emissionBytes units)).dropLast.length * cs + x.length := by
      rw [← hcont, List.length_flatten, hsum2]
    have hxcs : x.length = cs := by
      rcases Nat.lt_or_ge x.length cs with hlt | hge
      · exfalso
        have h1 : units.flatten.length % cs = x.length % cs := by
          rw [hsum, Nat.mul_comm, Nat.mul_add_mod]
        rw [hmod, Nat.mod_eq_of_lt hlt] at h1
        omega
      · omega
    rw [← dropLast_append_of_getLast? hx] at hbs
    rcases List.mem_append.mp hbs with h1 | h2
    · exact hdl bs h1
    · rw [List.mem_singleton.mp h2]
      exact hxcs
  · intro h0
    by_contra hne
    have hout0 : es.map (emissionBytes units) ≠ [] := hne
    obtain ⟨x, hx⟩ := getLast?_of_ne_nil hout0
    have hxlen := hlastL x hx
    have hsum2 : (List.map List.length (es.map (emissionBytes units))).sum
        = (es.map (emissionBytes units)).dropLast.length * cs + x.length := by
      conv_lhs => rw [← dropLast_append_of_getLast? hx]
      rw [List.map_append, List.sum_append, sum_of_const_lengths _ cs hdl]
      simp
    have hsum : units.flatten.length
        = (es.map (emissionBytes units)).dropLast.length * cs + x.length := by
      rw [← hcont, List.length_flatten, hsum2]
    omega

/-- Witness for C2 at a concrete input: `[[300 ones], [300], [300]]`-style
small analogue `[[1,1,1], [1,1,1]]` with chunk size 4 gives lengths
`[4, 2]`. -/
theorem chunkFrom_length_invariant_witness :
    (∀ bs ∈ ([[1, 1, 1, 1], [1, 1]] : List (List Nat)).dropLast, bs.length = 4) ∧
    (∀ bs, ([[1, 1, 1, 1], [1, 1]] : List (List Nat)).getLast? = some bs →
      1 ≤ bs.length ∧ bs.length ≤ 4) ∧
    (([[1, 1, 1], [1, 1, 1]] : List (List Nat)).flatten.length % 4 = 0 →
      ∀ bs ∈ ([[1, 1, 1, 1], [1, 1]] : List (List Nat)), bs.length = 4) ∧
    (([[1, 1, 1], [1, 1, 1]] : List (List Nat)).flatten.length = 0 →
      ([[1, 1, 1, 1], [1, 1]] : List (List Nat)) = []) :=
  chunkFrom_length_invariant [[1, 1, 1], [1, 1, 1]] 4 (by norm_num)
    (by norm_num [maxSafeInteger]) [[1, 1, 1, 1], [1, 1]]
    (by simp [chunkFromCore, runFrom, processPart, fastTail, sliceOffsets,
      typedArraySet, initState, emissionBytes])

/-- Claim C9: re-chunking is idempotent — feeding the chunks produced by
`chunkFrom` back into `chunkFrom` with the same chunk size yields the
same sequence of chunks (same lengths, same contents, same order). -/
theorem chunkFrom_idempotent (units : List (List Nat)) (cs : Nat)
    (hcs : 0 < cs) (hsafe : cs ≤ maxSafeInteger) (out : List (List Nat))
    (hout : chunkFromCore cs units = .ok out) :
    chunkFromCore cs out = .ok out := by
  obtain ⟨es, evts, hrun, hcont, hdl, hlastL, -, -, -, -, -⟩ :=
    runFrom_spec cs units hcs units 0 initState (List.drop_zero units)
      (initState_inv cs hcs 0)
  rw [chunkFromCore_of_runFrom cs units es evts hrun] at hout
  injection hout with hh
  subst hh
  obtain ⟨es2, evts2, hrun2, hmap2⟩ :=
    runFrom_identity cs (es.map (emissionBytes units)) hcs
      (es.map (emissionBytes units)) 0 initState (List.drop_zero _)
      (initState_inv cs hcs 0) rfl hdl hlastL
  rw [chunkFromCore_of_runFrom cs _ es2 evts2 hrun2, hmap2]

/-- Witness for C9 at a concrete input: the output `[[1,2],[3]]` of
re-chunking `[[1],[2],[3]]` with chunk size 2 re-chunks to itself. -/
theorem chunkFrom_idempotent_witness :
    chunkFromCore 2 [[1, 2], [3]] = .ok [[1, 2], [3]] :=
  chunkFrom_idempotent [[1], [2], [3]] 2 (by norm_num)
    (by norm_num [maxSafeInteger]) [[1, 2], [3]]
    (by simp [chunkFromCore, runFrom, processPart, fastTail, sliceOffsets,
      typedArraySet, initState, emissionBytes])

/-- Claim C7: whenever `chunkFrom` (or `chunkFromAsync`) reaches the
carry-accumulate branch — a pending carry exists and the unit is shorter
than `needed = chunkSize - carryLength` — the unchecked write
`carryBuffer.set(buffer, carryLength)` is in bounds: any reachable state
with `carryLength > 0` has an allocated carry buffer of capacity exactly
`chunkSize`, and the entering condition forces
`carryLength + buffer.length < chunkSize`. -/
theorem carry_write_in_bounds (cs : Nat) (hcs : 0 < cs)
    (hsafe : cs ≤ maxSafeInteger) (prefixUnits : List (List Nat))
    (st : CarryState)
    (hrun : runStateFrom cs prefixUnits 0 initState = .ok st)
    (buffer : List Nat) (hcl : 0 < st.carryLength)
    (hsmall : buffer.length < cs - st.carryLength) :
    ∃ cb, st.carryBuffer = some cb ∧ cb.length = cs ∧
      st.carryLength + buffer.length < cs ∧
      typedArraySet cb buffer st.carryLength
        = some (cb.take st.carryLength ++ buffer ++
            cb.drop (st.carryLength + buffer.length)) ∧
      runStateFromA cs prefixUnits 0 initState = .ok st := by
  obtain ⟨u2, hinv1, hinv2, hinv3, -, -⟩ :=
    runStateFrom_inv cs hcs prefixUnits 0 initState st
      (initState_inv cs hcs 0) hrun
  obtain ⟨cb, hcb⟩ := Option.isSome_iff_exists.mp (hinv2 hcl)
  have hcbl := hinv1 cb hcb
  refine ⟨cb, hcb, hcbl, by omega, ?_, ?_⟩
  · exact typedArraySet_eq cb buffer st.carryLength (by omega)
  · rw [runStateFromA_eq]
    exact hrun

/-- Witness for C7 at a concrete input: after consuming `[[1]]` with
chunk size 3 the carry holds one byte, and accumulating a 1-byte unit
writes in bounds. -/
theorem carry_write_in_bounds_witness :
    ∃ cb, (⟨some [1, 0, 0], 1, [(0, 0)]⟩ : CarryState).carryBuffer = some cb ∧
      cb.length = 3 ∧
      (⟨some [1, 0, 0], 1, [(0, 0)]⟩ : CarryState).carryLength + [2].length < 3 ∧
      typedArraySet cb [2] (⟨some [1, 0, 0], 1, [(0, 0)]⟩ : CarryState).carryLength
        = some (cb.take (⟨some [1, 0, 0], 1, [(0, 0)]⟩ : CarryState).carryLength
            ++ [2] ++ cb.drop
              ((⟨some [1, 0, 0], 1, [(0, 0)]⟩ : CarryState).carryLength
                + [2].length)) ∧
      runStateFromA 3 [[1]] 0 initState
        = .ok (⟨some [1, 0, 0], 1, [(0, 0)]⟩ : CarryState) :=
  carry_write_in_bounds 3 (by norm_num) (by norm_num [maxSafeInteger]) [[1]]
    ⟨some [1, 0, 0], 1, [(0, 0)]⟩
    (by
      simp [runStateFrom, processPart, fastTail, sliceOffsets, typedArraySet,
        initState]
      decide)
    [2] (by norm_num) (by norm_num)

/-- Claim C8: for every byte buffer and positive safe-integer chunk
size, `chunk` yields exactly the slices
`[offset, min(offset + chunkSize, length))` for
`offset = 0, chunkSize, 2·chunkSize, …` while `offset < length`, in that
order; an empty input yields no chunks. -/
theorem chunk_slices_exact (data : List Nat) (cs : Nat) (hcs : 0 < cs)
    (hsafe : cs ≤ maxSafeInteger) :
    chunkContents data cs = sliceSpecChunks data cs ∧
    (data.length = 0 → chunkContents data cs = []) := by
  constructor
  · unfold chunkContents sliceSpecChunks
    rw [chunkViews_eq_range cs data.length hcs 0, List.map_map]
    rw [Nat.sub_zero]
    refine List.map_congr_left ?_
    intro i _
    show viewContent data (0 + i * cs, min cs (data.length - (0 + i * cs))) = _
    unfold viewContent
    dsimp only
    rw [Nat.zero_add]
    have hmin : min cs (data.length - i * cs)
        = min (i * cs + cs) data.length - i * cs := by omega
    rw [hmin]
  · intro h0
    unfold chunkContents
    rw [chunkViews, dif_neg (by omega)]
    rfl

/-- Witness for C8 at a concrete input: splitting `[1,2,3,4,5]` with
chunk size 2. -/
theorem chunk_slices_exact_witness :
    chunkContents [1, 2, 3, 4, 5] 2 = sliceSpecChunks [1, 2, 3, 4, 5] 2 ∧
    (([1, 2, 3, 4, 5] : List Nat).length = 0 →
      chunkContents [1, 2, 3, 4, 5] 2 = []) :=
  chunk_slices_exact [1, 2, 3, 4, 5] 2 (by norm_num)
    (by norm_num [maxSafeInteger])

/-- Counterexample to C3 as stated: with chunk size 2 and units
`[[7], [8,9]]`, the single byte of unit 0 is copied twice — once into
the carry buffer (the `fromCarry := false` event) and once more when the
merged chunk is assembled from the carry (the `fromCarry := true`
event), so `countAllAt` for that byte is 2, not at most 1. -/
theorem copy_twice_counterexample :
    runFrom 2 [JSItem.view [7], JSItem.view [8, 9]] 0 initState
      = .ok ([Emission.owned [7, 8], Emission.owned [9]],
          [⟨false, 0, 0⟩, ⟨true, 0, 0⟩, ⟨false, 1, 0⟩, ⟨false, 1, 1⟩]) ∧
    countAllAt [⟨false, 0, 0⟩, ⟨true, 0, 0⟩, ⟨false, 1, 0⟩, ⟨false, 1, 1⟩]
      0 0 = 2 := by
  constructor
  · simp [runFrom, processPart, fastTail, sliceOffsets, typedArraySet, initState]
    decide
  · decide

/-- Claim C3, amended: during a `chunkFrom` run each input byte is read
out of its input unit at most once (either into the carry buffer or
directly into a merged chunk); bytes covered by a direct-slice fast-path
emission are never copied at all; and a byte staged in the carry buffer
may be copied once more when a merged chunk is completed, so the total
number of byte copies is bounded by twice the total input length. -/
theorem copy_cost_amended (units : List (List Nat)) (cs : Nat)
    (hcs : 0 < cs) (hsafe : cs ≤ maxSafeInteger)
    (es : List Emission) (evts : List CopyEvt)
    (hrun : runFrom cs (units.map JSItem.view) 0 initState = .ok (es, evts)) :
    (∀ v i, countFalseAt evts v i ≤ 1) ∧
    (∀ v i, sliceCovered es v i → countAllAt evts v i = 0) ∧
    evts.length ≤ 2 * units.flatten.length := by
  obtain ⟨es2, evts2, hrun2, -, -, -, -, hev, hcf, hcov, hphi⟩ :=
    runFrom_spec cs units hcs units 0 initState (List.drop_zero units)
      (initState_inv cs hcs 0)
  rw [hrun] at hrun2
  injection hrun2 with hh
  rw [Prod.mk.injEq] at hh
  obtain ⟨h1, h2⟩ := hh
  subst h1
  subst h2
  refine ⟨hcf, ?_, ?_⟩
  · intro v i hcv
    rw [countAllAt_split]
    have hf := hcov v i hcv
    have ht : countTrueAt evts v i = 0 := by
      by_contra hne
      have hpos : 0 < countTrueAt evts v i := Nat.pos_of_ne_zero hne
      obtain ⟨ev, hmem, htr, hu, hi⟩ := (countTrueAt_pos_iff evts v i).mp hpos
      rcases (hev ev hmem).2 htr with hmk | hor
      · have : 0 < countFalseAt evts v i :=
          (countFalseAt_pos_iff evts v i).mpr
            ⟨CopyEvt.mk false ev.unit ev.idx, hmk, rfl, hu, hi⟩
        omega
      · simp [initState] at hor
    omega
  · have : initState.origins.length = 0 := rfl
    omega

/-- Witness for the amended C3 at a concrete input: re-chunking
`[[1,2], [3]]` with chunk size 2 produces one fast-path slice, one
carried byte, and exactly one copy event. -/
theorem copy_cost_amended_witness :
    (∀ v i, countFalseAt [CopyEvt.mk false 1 0] v i ≤ 1) ∧
    (∀ v i, sliceCovered [Emission.slice 0 0 2, Emission.owned [3]] v i →
      countAllAt [CopyEvt.mk false 1 0] v i = 0) ∧
    ([CopyEvt.mk false 1 0] : List CopyEvt).length
      ≤ 2 * ([[1, 2], [3]] : List (List Nat)).flatten.length :=
  copy_cost_amended [[1, 2], [3]] 2 (by norm_num) (by norm_num [maxSafeInteger])
    [Emission.slice 0 0 2, Emission.owned [3]] [CopyEvt.mk false 1 0]
    (by
      simp [runFrom, processPart, fastTail, sliceOffsets, typedArraySet,
        initState]
      decide)

/-- Counterexample to C4 as stated: with chunk size 5 and the single
3-byte unit `[1,2,3]`, the one emitted chunk's bytes lie fully within
that one input unit (they are exactly its contents), yet the chunk is a
view of the private carry buffer, not of the unit: after mutating the
unit to `[9,8,7]`, reading the emitted chunk still gives `[1,2,3]` — the
mutation is not observable, so the chunk does not share backing storage
with the source unit. -/
theorem zero_copy_counterexample :
    runFrom 5 [JSItem.view [1, 2, 3]] 0 initState
      = .ok ([Emission.owned [1, 2, 3]],
          [⟨false, 0, 0⟩, ⟨false, 0, 1⟩, ⟨false, 0, 2⟩]) ∧
    emissionBytes [[1, 2, 3]] (Emission.owned [1, 2, 3]) = [1, 2, 3] ∧
    emissionBytes [[9, 8, 7]] (Emission.owned [1, 2, 3]) = [1, 2, 3] := by
  refine ⟨?_, rfl, rfl⟩
  simp [runFrom, processPart, fastTail, sliceOffsets, typedArraySet, initState]
  decide

/-- Claim C4, amended: every chunk emitted by the single-buffer splitter
`chunk` is a live view of the input (mutating the input inside the
chunk's range after emission is observable through the chunk), and
likewise every direct-slice fast-path emission of `chunkFrom` is a live
view of its source unit; chunks assembled through the carry buffer are
independent copies even when their bytes come from a single unit. -/
theorem zero_copy_amended :
    (∀ (data : List Nat) (cs : Nat), 0 < cs →
      ∀ v ∈ chunkViews cs data.length 0,
        v.1 + v.2 ≤ data.length ∧
        ∀ p b2, v.1 ≤ p → p < v.1 + v.2 →
          (viewContent (data.set p b2) v).getD (p - v.1) 0 = b2) ∧
    (∀ (units : List (List Nat)) (cs : Nat), 0 < cs →
      ∀ es evts, runFrom cs (units.map JSItem.view) 0 initState = .ok (es, evts) →
      ∀ v o l, Emission.slice v o l ∈ es →
        l = cs ∧ o + cs ≤ (units.getD v []).length ∧
        ∀ p b2, o ≤ p → p < o + cs →
          (emissionBytes (units.set v ((units.getD v []).set p b2))
            (Emission.slice v o l)).getD (p - o) 0 = b2) := by
  constructor
  · intro data cs hcs v hv
    have hb := chunkViews_mem cs data.length 0 v hv
    refine ⟨hb.2.2.1, ?_⟩
    intro p b2 hp1 hp2
    exact viewContent_set_getD data v.1 v.2 p b2 hp1 hp2 hb.2.2.1
  · intro units cs hcs es evts hrun v o l hsl
    obtain ⟨es2, evts2, hrun2, -, -, -, hslices, -, -, -, -⟩ :=
      runFrom_spec cs units hcs units 0 initState (List.drop_zero units)
        (initState_inv cs hcs 0)
    rw [hrun] at hrun2
    injection hrun2 with hh
    rw [Prod.mk.injEq] at hh
    obtain ⟨h1, h2⟩ := hh
    subst h1
    subst h2
    obtain ⟨-, hvlen, hlcs, hocs⟩ := hslices v o l hsl
    refine ⟨hlcs, hocs, ?_⟩
    intro p b2 hp1 hp2
    have hg : (units.set v ((units.getD v []).set p b2)).getD v []
        = (units.getD v []).set p b2 := by
      rw [List.getD_eq_getElem?_getD, List.getElem?_set, if_pos rfl,
        if_pos hvlen]
      rfl
    show ((((units.set v ((units.getD v []).set p b2)).getD v []).drop o).take
      l).getD (p - o) 0 = b2
    rw [hg, hlcs]
    exact viewContent_set_getD (units.getD v []) o cs p b2 hp1 hp2 hocs

/-- Witness for the amended C4 at concrete inputs: mutating byte 1 of
`[1,2,3,4,5]` is visible through the first emitted view of `chunk`, and
mutating byte 1 of unit 0 of `[[1,2],[3]]` is visible through the
fast-path slice `chunkFrom` emitted for it. -/
theorem zero_copy_amended_witness :
    ((viewContent (([1, 2, 3, 4, 5] : List Nat).set 1 9) (0, 2)).getD 1 0 = 9) ∧
    ((emissionBytes (([[1, 2], [3]] : List (List Nat)).set 0
        ((([[1, 2], [3]] : List (List Nat)).getD 0 []).set 1 7))
        (Emission.slice 0 0 2)).getD 1 0 = 7) := by
  constructor
  · exact (zero_copy_amended.1 [1, 2, 3, 4, 5] 2 (by norm_num) (0, 2)
      (by
        rw [show ([1, 2, 3, 4, 5] : List Nat).length = 5 from rfl]
        rw [chunkViews, dif_pos (by norm_num)]
        simp)).2 1 9 (by norm_num) (by norm_num)
  · exact (zero_copy_amended.2 [[1, 2], [3]] 2 (by norm_num)
      [Emission.slice 0 0 2, Emission.owned [3]] [CopyEvt.mk false 1 0]
      (by
        simp [runFrom, processPart, fastTail, sliceOffsets, typedArraySet,
          initState]
        decide)
      0 0 2 (by simp)).2.2 1 7 (by norm_num) (by norm_num)

/-! ### Validation-layer helpers -/

theorem validChunkSize_num_iff (q : Rat) :
    validChunkSize (JSNumber.num q) = true ↔
      (0 < q ∧ q.den = 1 ∧ q.num.natAbs ≤ maxSafeInteger) := by
  unfold validChunkSize isSafeInteger jsLeZero
  simp only [Bool.and_eq_true, Bool.not_eq_true', decide_eq_false_iff_not,
    decide_eq_true_eq, beq_iff_eq, not_le]
  tauto

theorem toNat_pos_of_valid (cs : JSNumber) (hv : validChunkSize cs = true) :
    0 < toNatChunkSize cs := by
  cases cs with
  | num q =>
    have h := (validChunkSize_num_iff q).mp hv
    have hq : 0 < q.num := Rat.num_pos.mpr h.1
    show 0 < q.num.toNat
    omega
  | nan => simp [validChunkSize, isSafeInteger] at hv
  | posInf => simp [validChunkSize, isSafeInteger] at hv
  | negInf => simp [validChunkSize, isSafeInteger] at hv

theorem runFrom_ok_of_allViews (cs : Nat) (hcs : 0 < cs) (items : List JSItem)
    (hall : allViews items = true) :
    ∃ res, runFrom cs items 0 initState = .ok res := by
  obtain ⟨es, evts, hrun, -⟩ :=
    runFrom_spec cs (items.map itemBytes) hcs (items.map itemBytes) 0 initState
      (List.drop_zero _) (initState_inv cs hcs 0)
  refine ⟨(es, evts), ?_⟩
  rw [eq_map_view_of_allViews items hall]
  exact hrun

theorem chunkFromJS_error_iff (src : JSSource) (cs : JSNumber) :
    (∃ e, chunkFromJS src cs = .error e) ↔
      (recognizedSyncSource src = false ∨ validChunkSize cs = false) := by
  unfold chunkFromJS
  by_cases hg : (!src.hasIterator || src.isString) = true
  · rw [if_pos hg]
    constructor
    · intro _
      left
      unfold recognizedSyncSource
      revert hg
      cases src.hasIterator <;> cases src.isString <;> simp
    · intro _
      exact ⟨.sourceType, rfl⟩
  · rw [if_neg hg]
    have hIt : src.hasIterator = true := by
      revert hg
      cases src.hasIterator <;> cases src.isString <;> simp
    have hStr : src.isString = false := by
      revert hg
      cases src.hasIterator <;> cases src.isString <;> simp
    by_cases hv : validChunkSize cs = true
    · rw [if_neg (by simp [hv])]
      by_cases hall : allViews src.items = true
      · obtain ⟨res, hres⟩ :=
          runFrom_ok_of_allViews (toNatChunkSize cs)
            (toNat_pos_of_valid cs hv) src.items hall
        obtain ⟨es0, evts0⟩ := res
        rw [hres]
        constructor
        · rintro ⟨e, he⟩
          exact Except.noConfusion he
        · rintro (h | h)
          · unfold recognizedSyncSource at h
            rw [hIt, hStr, hall] at h
            simp at h
          · rw [hv] at h
            simp at h
      · have hall2 : allViews src.items = false := by
          revert hall
          cases allViews src.items <;> simp
        obtain ⟨e, he⟩ := runFrom_error (toNatChunkSize cs)
          (toNat_pos_of_valid cs hv) src.items 0 initState
          (initState_inv _ (toNat_pos_of_valid cs hv) 0) hall2
        rw [he]
        constructor
        · intro _
          left
          unfold recognizedSyncSource
          rw [hall2]
          simp
        · intro _
          exact ⟨e, rfl⟩
    · have hv2 : validChunkSize cs = false := by
        revert hv
        cases validChunkSize cs <;> simp
      rw [if_pos (by simp [hv2])]
      constructor
      · intro _
        right
        exact hv2
      · intro _
        exact ⟨.chunkSizeType, rfl⟩

theorem chunkFromAsyncJS_error_iff (src : JSSource) (cs : JSNumber) :
    (∃ e, chunkFromAsyncJS src cs = .error e) ↔
      (recognizedAsyncSource src = false ∨ validChunkSize cs = false) := by
  unfold chunkFromAsyncJS
  by_cases hg : (!src.hasAsyncIterator && !src.hasIterator) = true
  · rw [if_pos hg]
    constructor
    · intro _
      left
      unfold recognizedAsyncSource
      revert hg
      cases src.hasAsyncIterator <;> cases src.hasIterator <;> simp
    · intro _
      exact ⟨.sourceType, rfl⟩
  · rw [if_neg hg]
    have hIt : (src.hasAsyncIterator || src.hasIterator) = true := by
      revert hg
      cases src.hasAsyncIterator <;> cases src.hasIterator <;> simp
    by_cases hv : validChunkSize cs = true
    · rw [if_neg (by simp [hv])]
      rw [runFromA_eq_runFrom]
      by_cases hall : allViews (asyncEffectiveItems src) = true
      · obtain ⟨res, hres⟩ :=
          runFrom_ok_of_allViews (toNatChunkSize cs)
            (toNat_pos_of_valid cs hv) (asyncEffectiveItems src) hall
        obtain ⟨es0, evts0⟩ := res
        rw [hres]
        constructor
        · rintro ⟨e, he⟩
          exact Except.noConfusion he
        · rintro (h | h)
          · unfold recognizedAsyncSource at h
            rw [hIt, hall] at h
            simp at h
          · rw [hv] at h
            simp at h
      · have hall2 : allViews (asyncEffectiveItems src) = false := by
          revert hall
          cases allViews (asyncEffectiveItems src) <;> simp
        obtain ⟨e, he⟩ := runFrom_error (toNatChunkSize cs)
          (toNat_pos_of_valid cs hv) (asyncEffectiveItems src) 0 initState
          (initState_inv _ (toNat_pos_of_valid cs hv) 0) hall2
        rw [he]
        constructor
        · intro _
          left
          unfold recognizedAsyncSource
          rw [hall2]
          simp
        · intro _
          exact ⟨e, rfl⟩
    · have hv2 : validChunkSize cs = false := by
        revert hv
        cases validChunkSize cs <;> simp
      rw [if_pos (by simp [hv2])]
      constructor
      · intro _
        right
        exact hv2
      · intro _
        exact ⟨.chunkSizeType, rfl⟩

/-- Counterexample to C5 as stated: on synchronous iterables the two
functions can diverge in three ways.  (1) Strings: `chunkFrom` rejects
the empty and the one-character string eagerly with the source-type
error, while `chunkFromAsync` yields zero chunks without any error for
the empty string and fails with the per-item error for the one-character
string.  (2) A non-string synchronous iterable that yields a thenable
resolving to a view: `chunkFrom` sees the thenable itself (not a view)
and fails with the per-item error, while the `for await` loop of
`chunkFromAsync` awaits it and emits the chunk.  (3) A source carrying
both iteration protocols: `chunkFrom` consumes the synchronous stream
while `chunkFromAsync` prefers `Symbol.asyncIterator`, so the two can
see entirely different items. -/
theorem string_divergence_counterexample :
    (chunkFromJS (stringSource 0) (JSNumber.num 5) = .error .sourceType ∧
      chunkFromAsyncJS (stringSource 0) (JSNumber.num 5) = .ok []) ∧
    (chunkFromJS (stringSource 1) (JSNumber.num 5) = .error .sourceType ∧
      chunkFromAsyncJS (stringSource 1) (JSNumber.num 5) = .error .itemType) ∧
    (chunkFromJS
        ⟨true, false, false, [JSItem.thenable (JSItem.view [1, 2])], []⟩
        (JSNumber.num 2) = .error .itemType ∧
      chunkFromAsyncJS
        ⟨true, false, false, [JSItem.thenable (JSItem.view [1, 2])], []⟩
        (JSNumber.num 2) = .ok [Emission.slice 0 0 2]) ∧
    (chunkFromJS ⟨true, true, false, [JSItem.view [1, 2]], [JSItem.nonView]⟩
        (JSNumber.num 2) = .ok [Emission.slice 0 0 2] ∧
      chunkFromAsyncJS
        ⟨true, true, false, [JSItem.view [1, 2]], [JSItem.nonView]⟩
        (JSNumber.num 2) = .error .itemType) := by
  refine ⟨⟨rfl, ?_⟩, ⟨rfl, ?_⟩, ⟨?_, ?_⟩, ⟨?_, ?_⟩⟩
  · show chunkFromAsyncJS (stringSource 0) (JSNumber.num 5) = .ok []
    unfold chunkFromAsyncJS
    rw [if_neg (by simp [stringSource])]
    rw [if_neg (by norm_num [validChunkSize, isSafeInteger, jsLeZero,
      maxSafeInteger])]
    rfl
  · unfold chunkFromAsyncJS
    rw [if_neg (by simp [stringSource])]
    rw [if_neg (by norm_num [validChunkSize, isSafeInteger, jsLeZero,
      maxSafeInteger])]
    rfl
  · unfold chunkFromJS
    rw [if_neg (by simp)]
    rw [if_neg (by norm_num [validChunkSize, isSafeInteger, jsLeZero,
      maxSafeInteger])]
    rfl
  · unfold chunkFromAsyncJS
    rw [if_neg (by simp)]
    rw [if_neg (by norm_num [validChunkSize, isSafeInteger, jsLeZero,
      maxSafeInteger])]
    simp [asyncEffectiveItems, awaitItem, runFromA, processPartA, fastTailA,
      sliceOffsets, typedArraySet, initState, toNatChunkSize]
  · unfold chunkFromJS
    rw [if_neg (by simp)]
    rw [if_neg (by norm_num [validChunkSize, isSafeInteger, jsLeZero,
      maxSafeInteger])]
    simp [runFrom, processPart, fastTail, sliceOffsets, typedArraySet,
      initState, toNatChunkSize]
  · unfold chunkFromAsyncJS
    rw [if_neg (by simp)]
    rw [if_neg (by norm_num [validChunkSize, isSafeInteger, jsLeZero,
      maxSafeInteger])]
    rfl

/-- Claim C5, amended: for every synchronous iterable source that is not
a string, does not also implement the asynchronous-iteration protocol,
and yields no thenables, `chunkFromAsync` behaves identically to
`chunkFrom` — the same chunks on valid input and the same errors under
the same conditions on invalid input.  The excluded sources genuinely
diverge: strings are rejected eagerly only by `chunkFrom` (claim C10),
`for await` unwraps thenables yielded by a synchronous iterator, and it
prefers `Symbol.asyncIterator` when both protocols are present. -/
theorem sync_iterable_equivalence (src : JSSource) (cs : JSNumber)
    (h1 : src.hasIterator = true) (h2 : src.isString = false)
    (h3 : src.hasAsyncIterator = false)
    (h4 : ∀ it ∈ src.items, isThenable it = false) :
    chunkFromAsyncJS src cs = chunkFromJS src cs := by
  have hawait : ∀ it ∈ src.items, awaitItem it = it := by
    intro it hit
    cases it with
    | view b => rfl
    | nonView => rfl
    | thenable r => exact absurd (h4 _ hit) (by simp [isThenable])
  have heff : asyncEffectiveItems src = src.items := by
    unfold asyncEffectiveItems
    rw [h3, if_neg (by simp)]
    calc src.items.map awaitItem
        = src.items.map id := List.map_congr_left fun it hit => hawait it hit
      _ = src.items := List.map_id _
  unfold chunkFromAsyncJS chunkFromJS
  rw [h1, h2, h3, heff]
  simp only [Bool.not_true, Bool.not_false, Bool.true_and, Bool.or_false]
  rw [runFromA_eq_runFrom]

/-- Witness for the amended C5 at a concrete input: a plain array-like
iterable of one 3-byte view, with no async protocol and no thenables. -/
theorem sync_iterable_equivalence_witness :
    chunkFromAsyncJS ⟨true, false, false, [JSItem.view [1, 2, 3]], []⟩
        (JSNumber.num 2)
      = chunkFromJS ⟨true, false, false, [JSItem.view [1, 2, 3]], []⟩
        (JSNumber.num 2) :=
  sync_iterable_equivalence ⟨true, false, false, [JSItem.view [1, 2, 3]], []⟩
    (JSNumber.num 2) rfl rfl rfl (by decide)

/-- Claim C6: each of `chunk`, `chunkFrom` and `chunkFromAsync` fails
(with a `TypeError`) exactly when its data/source argument is not a
recognized binary view (respectively sequence of views) or the chunk
size is not a positive safe integer — a finite value that is integral,
positive, and at most `2^53 - 1`, so zero, negative, non-integer, `NaN`,
infinite and beyond-safe-integer values are all rejected — and the
input/source type is checked before the chunk size, so when both
arguments are invalid the source-type error is the one signalled. -/
theorem validation_characterization :
    (∀ q : Rat, validChunkSize (JSNumber.num q) = true ↔
      (0 < q ∧ q.den = 1 ∧ q.num.natAbs ≤ maxSafeInteger)) ∧
    validChunkSize JSNumber.nan = false ∧
    validChunkSize JSNumber.posInf = false ∧
    validChunkSize JSNumber.negInf = false ∧
    (∀ (d : JSData) (cs : JSNumber),
      ((∃ e, chunkJS d cs = .error e) ↔
        (isViewData d = false ∨ validChunkSize cs = false)) ∧
      (isViewData d = false → chunkJS d cs = .error .sourceType)) ∧
    (∀ (src : JSSource) (cs : JSNumber),
      ((∃ e, chunkFromJS src cs = .error e) ↔
        (recognizedSyncSource src = false ∨ validChunkSize cs = false)) ∧
      (src.hasIterator = false ∨ src.isString = true →
        chunkFromJS src cs = .error .sourceType)) ∧
    (∀ (src : JSSource) (cs : JSNumber),
      ((∃ e, chunkFromAsyncJS src cs = .error e) ↔
        (recognizedAsyncSource src = false ∨ validChunkSize cs = false)) ∧
      (src.hasAsyncIterator = false ∧ src.hasIterator = false →
        chunkFromAsyncJS src cs = .error .sourceType)) := by
  refine ⟨validChunkSize_num_iff, rfl, rfl, rfl, ?_, ?_, ?_⟩
  · intro d cs
    constructor
    · cases d with
      | nonView =>
        constructor
        · intro _
          left
          rfl
        · intro _
          exact ⟨.sourceType, rfl⟩
      | view bytes =>
        unfold chunkJS
        dsimp only
        by_cases hv : validChunkSize cs = true
        · rw [if_neg (by simp [hv])]
          constructor
          · rintro ⟨e, he⟩
            exact Except.noConfusion he
          · rintro (h | h)
            · simp [isViewData] at h
            · rw [hv] at h
              simp at h
        · have hv2 : validChunkSize cs = false := by
            revert hv
            cases validChunkSize cs <;> simp
          rw [if_pos (by simp [hv2])]
          exact ⟨fun _ => Or.inr hv2, fun _ => ⟨.chunkSizeType, rfl⟩⟩
    · intro hd
      cases d with
      | nonView => rfl
      | view bytes => simp [isViewData] at hd
  · intro src cs
    refine ⟨chunkFromJS_error_iff src cs, ?_⟩
    intro hd
    unfold chunkFromJS
    rw [if_pos ?_]
    rcases hd with h | h
    · rw [h]
      rfl
    · rw [h]
      simp
  · intro src cs
    refine ⟨chunkFromAsyncJS_error_iff src cs, ?_⟩
    intro hd
    unfold chunkFromAsyncJS
    rw [if_pos (by rw [hd.1, hd.2]; rfl)]

/-- Witness for C6 at concrete inputs: a non-view data argument with an
invalid chunk size gives the source-type error, and `NaN` is an invalid
chunk size. -/
theorem validation_characterization_witness :
    chunkJS JSData.nonView (JSNumber.num 0) = .error .sourceType ∧
    validChunkSize JSNumber.nan = false :=
  ⟨(validation_characterization.2.2.2.2.1 JSData.nonView
      (JSNumber.num 0)).2 rfl,
    validation_characterization.2.1⟩

/-- Claim C10: `chunkFrom` and `chunkFromAsync` treat strings
differently.  `chunkFrom` rejects every string eagerly with the
source-type error (strings are explicitly excluded even though they are
iterable), while `chunkFromAsync` lets a string through its eager check
(a string has `Symbol.iterator`) and, for a non-empty string with a
valid chunk size, fails only with the per-item error when the first
yielded character is found not to be a binary view. -/
theorem string_source_divergence (n : Nat) (cs : JSNumber) :
    chunkFromJS (stringSource n) cs = .error .sourceType ∧
    (validChunkSize cs = true → 0 < n →
      chunkFromAsyncJS (stringSource n) cs = .error .itemType) := by
  constructor
  · rfl
  · intro hv hn
    unfold chunkFromAsyncJS
    rw [if_neg (by simp [stringSource])]
    rw [if_neg (by simp [hv])]
    cases n with
    | zero => exact absurd hn (by omega)
    | succ m =>
      rw [show asyncEffectiveItems (stringSource (m + 1))
          = JSItem.nonView :: (List.replicate m JSItem.nonView).map awaitItem
        from rfl]
      rfl

/-- Witness for C10 at a concrete input: the one-character string with
chunk size 5. -/
theorem string_source_divergence_witness :
    chunkFromJS (stringSource 1) (JSNumber.num 5) = .error .sourceType ∧
    chunkFromAsyncJS (stringSource 1) (JSNumber.num 5) = .error .itemType :=
  ⟨(string_source_divergence 1 (JSNumber.num 5)).1,
    (string_source_divergence 1 (JSNumber.num 5)).2
      (by norm_num [validChunkSize, isSafeInteger, jsLeZero, maxSafeInteger])
      (by norm_num)⟩

end ChunkData
